import Mathlib

/-!
Verification of the line-oriented DSL core of the workout-choreo-creator
repository (src/server/src/services/dsl.ts and the part-validation layer of
src/server/src/routes/songs.ts), shallowly embedded in Lean.

Strings are modelled as `List Char` (JS strings are sequences of code units;
all inputs of interest are plain text).  JS numbers are modelled as
`Option ℚ`, `none` standing for NaN: every numeric operation the code
performs on these values (parseFloat, comparison, printing) is exact on
rationals, and NaN propagation is explicit.  Number-to-string models the
ECMAScript rule, including the switch to exponent notation below 1e-6 and
at 1e21 (`qToStrNN`); parseFloat of the literal "Infinity" and float
saturation to Infinity above the double range (~1.8e308) are outside the
exact-rational embedding — where a parsed magnitude crosses that range the
development states an explicit bound instead (`parseSongFile_time_overflow`).
-/

set_option synthInstance.maxSize 512

abbrev Str := List Char

/-- Character list of a string literal (JS strings are modelled as `List Char`). -/
def str (s : String) : Str := s.data

/-- The whitespace class of JavaScript (`\s`, `String.prototype.trim`):
ASCII whitespace plus the Unicode space separators, NEL excluded as in JS. -/
def wsChar (c : Char) : Bool :=
  c == ' ' || c == '\t' || c == '\n' || c == '\r' || c == '\x0b' || c == '\x0c' ||
  c == ' ' || c == ' ' || (8192 ≤ c.toNat && c.toNat ≤ 8202) ||
  c == ' ' || c == ' ' || c == ' ' || c == ' ' ||
  c == '　' || c == '﻿'

/-- JS line terminators: the characters `.` does not match in a JS regex. -/
def lineTerm (c : Char) : Bool :=
  c == '\n' || c == '\r' || c == ' ' || c == ' '

/-- Model of `String.prototype.trim`: drop leading and trailing whitespace. -/
def jsTrim (s : Str) : Str := (s.dropWhile wsChar).rdropWhile wsChar

/-- Model of `String.prototype.toLowerCase` on one character; agrees with JS
on the ASCII range, which is all the code ever lowercases (metadata keys). -/
def jsToLowerChar (c : Char) : Char :=
  if 65 ≤ c.toNat ∧ c.toNat ≤ 90 then Char.ofNat (c.toNat + 32) else c

/-- Model of `String.prototype.toLowerCase` (ASCII fragment). -/
def jsToLower (s : Str) : Str := s.map jsToLowerChar

/-- Split on a single separator character, keeping empty pieces:
model of JS `String.prototype.split("\n")`. -/
def splitLines : Str → List Str
  | [] => [[]]
  | c :: r =>
    if c = '\n' then [] :: splitLines r
    else
      match splitLines r with
      | [] => [[c]]
      | l :: ls => (c :: l) :: ls

/-- Join lines with the newline character: model of `Array.prototype.join("\n")`. -/
def joinLines : List Str → Str
  | [] => []
  | [l] => l
  | l :: ls => l ++ '\n' :: joinLines ls

/-- Join pieces with an arbitrary separator: model of `Array.prototype.join(sep)`. -/
def joinSep (sep : Str) : List Str → Str
  | [] => []
  | [l] => l
  | l :: ls => l ++ sep ++ joinSep sep ls

/-- Split on maximal runs of separator characters: model of JS
`String.prototype.split` against a `/[sep]+/` regex (a leading or trailing
separator run contributes an empty piece, inner runs collapse). -/
def splitRunsAux (p : Char → Bool) : Nat → Str → List Str
  | 0, s => [s]
  | fuel + 1, s =>
    let tok := s.takeWhile (fun c => !p c)
    let rest := s.dropWhile (fun c => !p c)
    match rest with
    | [] => [tok]
    | _ :: r => tok :: splitRunsAux p fuel (r.dropWhile p)

def splitRuns (p : Char → Bool) (s : Str) : List Str := splitRunsAux p s.length s

theorem splitRunsAux_irrel (p : Char → Bool) : ∀ (f1 : Nat), ∀ (f2 : Nat), ∀ (s : Str),
    s.length ≤ f1 → s.length ≤ f2 → splitRunsAux p f1 s = splitRunsAux p f2 s := by
  intro f1
  induction f1 with
  | zero =>
    intro f2 s h1 h2
    have hs : s = [] := List.length_eq_zero.mp (Nat.le_zero.mp h1)
    subst hs
    cases f2 <;> simp [splitRunsAux]
  | succ f ih =>
    intro f2 s h1 h2
    match f2 with
    | 0 =>
      have hs : s = [] := List.length_eq_zero.mp (Nat.le_zero.mp h2)
      subst hs
      simp [splitRunsAux]
    | g + 1 =>
      have hrest : (s.dropWhile (fun c => !p c)).length ≤ s.length :=
        (List.dropWhile_suffix _).length_le
      match hr : s.dropWhile (fun c => !p c) with
      | [] => simp only [splitRunsAux, hr]
      | c :: r =>
        rw [hr] at hrest
        have hlen : (r.dropWhile p).length ≤ r.length := (List.dropWhile_suffix _).length_le
        simp only [List.length_cons] at hrest
        simp only [splitRunsAux, hr]
        rw [ih g (r.dropWhile p) (by omega) (by omega)]

/-- One-step unfolding of `splitRuns`. -/
theorem splitRuns_eq (p : Char → Bool) (s : Str) :
    splitRuns p s =
      match s.dropWhile (fun c => !p c) with
      | [] => [s.takeWhile (fun c => !p c)]
      | _ :: r => s.takeWhile (fun c => !p c) :: splitRuns p (r.dropWhile p) := by
  unfold splitRuns
  rcases hl : s.length with _ | f
  · have hs : s = [] := List.length_eq_zero.mp hl
    subst hs
    simp [splitRunsAux]
  · have hrest : (s.dropWhile (fun c => !p c)).length ≤ s.length :=
      (List.dropWhile_suffix _).length_le
    match hr : s.dropWhile (fun c => !p c) with
    | [] => simp only [splitRunsAux, hr]
    | c :: r =>
      rw [hr] at hrest
      have hlen : (r.dropWhile p).length ≤ r.length := (List.dropWhile_suffix _).length_le
      simp only [List.length_cons, hl] at hrest
      simp only [splitRunsAux, hr]
      rw [splitRunsAux_irrel p f (r.dropWhile p).length (r.dropWhile p) (by omega) (by omega)]

/-- The position split of `indexOf(" ")` followed by the two `substring`s:
`some (before, after)` around the first space, `none` when there is no space. -/
def splitFirstSpace : Str → Option (Str × Str)
  | [] => none
  | c :: r =>
    if c = ' ' then some ([], r)
    else (splitFirstSpace r).map (fun p => (c :: p.1, p.2))

-- ----- JS numbers -----

/-- A JS number as the codecs use one: an exact rational, or NaN (`none`). -/
abbrev JsNum := Option ℚ

/-- JS `<` on numbers: false whenever either side is NaN. -/
def jsLt (x y : JsNum) : Bool :=
  match x, y with
  | some a, some b => decide (a < b)
  | _, _ => false

/-- JS `<=` on numbers: false whenever either side is NaN. -/
def jsLe (x y : JsNum) : Bool :=
  match x, y with
  | some a, some b => decide (a ≤ b)
  | _, _ => false

/-- Value of a digit string, most significant first (`fold` of `*10 + digit`). -/
def digitsVal (ds : Str) : Nat := ds.foldl (fun a c => a * 10 + (c.toNat - 48)) 0

/-- Model of JS `parseFloat`: skip leading whitespace, read an optional sign,
digits, an optional point with digits, and an optional exponent; ignore any
trailing junk; NaN (`none`) when no digit was read.  (The `Infinity` literal
is not modelled; no input in this development contains it.) -/
def startsWithChar (c : Char) : Str → Bool
  | [] => false
  | d :: _ => d == c

def pfFinish (neg : Bool) (ds1 ds2 : Str) (eNeg : Bool) (eDs : Str) : JsNum :=
  let mantNum : Nat := digitsVal ds1 * 10 ^ ds2.length + digitsVal ds2
  let mantDen : Nat := 10 ^ ds2.length
  let num : Nat := if eDs = [] ∨ eNeg = true then mantNum else mantNum * 10 ^ digitsVal eDs
  let den : Nat := if eNeg = true ∧ eDs ≠ [] then mantDen * 10 ^ digitsVal eDs else mantDen
  some (mkRat (if neg then -(num : Int) else (num : Int)) den)

/-- Exponent step of `parseFloat`: `[eE][+-]?digits`, ignored when the
digits are missing. -/
def pfExponent (neg : Bool) (ds1 ds2 : Str) (s4 : Str) : JsNum :=
  if startsWithChar 'e' s4 || startsWithChar 'E' s4 then
    let r1 := s4.drop 1
    let r2 := if startsWithChar '+' r1 || startsWithChar '-' r1 then r1.drop 1 else r1
    pfFinish neg ds1 ds2 (startsWithChar '-' r1) (r2.takeWhile Char.isDigit)
  else pfFinish neg ds1 ds2 false []

/-- Fraction step of `parseFloat`: an optional `.` with digits; NaN when no
digit was read at all. -/
def pfFraction (neg : Bool) (ds1 : Str) (s3 : Str) : JsNum :=
  let ds2 := if startsWithChar '.' s3 then (s3.drop 1).takeWhile Char.isDigit else []
  let s4 := if startsWithChar '.' s3 then (s3.drop 1).dropWhile Char.isDigit else s3
  if ds1 = [] ∧ ds2 = [] then none else pfExponent neg ds1 ds2 s4

/-- Integer-digit step of `parseFloat`. -/
def pfDigits (neg : Bool) (s2 : Str) : JsNum :=
  pfFraction neg (s2.takeWhile Char.isDigit) (s2.dropWhile Char.isDigit)

def parseFloatQ (s : Str) : JsNum :=
  let s1 := s.dropWhile wsChar
  pfDigits (startsWithChar '-' s1)
    (if startsWithChar '+' s1 || startsWithChar '-' s1 then s1.drop 1 else s1)

/-- Decimal digit as a character. -/
def digitChar (d : Nat) : Char := Char.ofNat (48 + d)

/-- Little-endian decimal digits of `n`, with explicit structural fuel
(`n` itself always suffices as fuel). -/
def natDigitsRevAux : Nat → Nat → List Nat
  | 0, _ => []
  | _, 0 => []
  | fuel + 1, n => (n % 10) :: natDigitsRevAux fuel (n / 10)

/-- Decimal digit string of a natural number, as JS prints one. -/
def natToStr (n : Nat) : Str :=
  if n = 0 then ['0'] else ((natDigitsRevAux n n).map digitChar).reverse

/-- Exactly `k` little-endian decimal digits of `m` (for `m < 10 ^ k`). -/
def natDigitsPad : Nat → Nat → List Nat
  | 0, _ => []
  | k + 1, m => (m % 10) :: natDigitsPad k (m / 10)

/-- `m` printed as exactly `k` decimal digits, leading zeros kept. -/
def padDigits (k m : Nat) : Str := ((natDigitsPad k m).map digitChar).reverse

/-- The least exponent `k ≤ d` with `d ∣ 10 ^ k`, when one exists. -/
def findPow (d : Nat) : Option Nat := (List.range (d + 1)).find? (fun k => 10 ^ k % d == 0)

/-- Plain-decimal form of a nonnegative rational whose denominator divides a
power of ten (shortest form, no trailing zeros, no point for integers): what
JS number-to-string prints inside its plain-decimal range. -/
def qToStrNNDec (q : ℚ) : Str :=
  match findPow q.den with
  | some k =>
    let N := q.num.toNat * 10 ^ k / q.den
    if k = 0 then natToStr N
    else natToStr (N / 10 ^ k) ++ '.' :: padDigits k (N % 10 ^ k)
  | none => str "?"

/-- Exponent notation for the value `N / 10 ^ k`, as ECMAScript
number-to-string prints it outside the plain-decimal range: the stripped
significand, a point after its first digit when it has several, then
`e`, an explicit sign and the decimal exponent (`1e+21`, `1.5e-7`). -/
def qToExpStr (N k : Nat) : Str :=
  let D := natToStr N
  let s := D.rdropWhile (fun c => c == '0')
  let e : Int := (D.length : Int) - (k : Int) - 1
  let mant := match s with
    | [] => str "0"
    | [d] => [d]
    | d :: ds => d :: '.' :: ds
  mant ++ 'e' :: (if e < 0 then '-' :: natToStr (-e).toNat else '+' :: natToStr e.toNat)

/-- JS number-to-string for a nonnegative finite-decimal rational.  Writing
the value as `0.D×10^n` with `D` the digit string of `N = num·10^k/den`
(least such `k`), ECMAScript prints exponent notation exactly when `n > 21`
(value ≥ 1e21) or `n ≤ -6` (value < 1e-6), and plain decimal otherwise. -/
def qToStrNN (q : ℚ) : Str :=
  match findPow q.den with
  | some k =>
    if q.num.toNat * 10 ^ k / q.den ≠ 0
        ∧ (21 < ((natToStr (q.num.toNat * 10 ^ k / q.den)).length : Int) - (k : Int)
           ∨ ((natToStr (q.num.toNat * 10 ^ k / q.den)).length : Int) - (k : Int) ≤ -6) then
      qToExpStr (q.num.toNat * 10 ^ k / q.den) k
    else qToStrNNDec q
  | none => str "?"

/-- Model of JS number-to-string for the finite-decimal rationals the
well-formedness side conditions admit. -/
def qToStr (q : ℚ) : Str := if q < 0 then '-' :: qToStrNN (-q) else qToStrNN q

/-- JS string interpolation of a number (`none` prints as NaN does). -/
def jsNumToStr (x : JsNum) : Str :=
  match x with
  | some q => qToStr q
  | none => str "NaN"

-- ----- Song DSL (src/server/src/services/dsl.ts) -----

inductive Stance where
  | Right
  | Left
  | Centered
deriving DecidableEq, Repr

instance : Inhabited Stance := ⟨Stance.Centered⟩

/-- The exact text of a stance in the file format. -/
def stanceStr : Stance → Str
  | .Right => str "Right"
  | .Left => str "Left"
  | .Centered => str "Centered"

structure SongPart where
  id : Str
  name : Str
  startTime : JsNum
  endTime : JsNum
  stance : Stance
deriving DecidableEq, Repr

structure SongFile where
  name : Str
  artist : Str
  duration : JsNum
  bpm : JsNum
  filepath : Str
  beats : List JsNum
  parts : List SongPart
deriving DecidableEq, Repr

/-- First step of `PART_LINE_RE`: one `\d+\.?\d*` group (digits, optional
point, optional digits), returning the matched text and the rest. -/
def matchNum (l : Str) : Option (Str × Str) :=
  let d1 := l.takeWhile Char.isDigit
  let r1 := l.dropWhile Char.isDigit
  if d1 = [] then none
  else
    match r1 with
    | '.' :: r2 => some (d1 ++ '.' :: r2.takeWhile Char.isDigit, r2.dropWhile Char.isDigit)
    | _ => some (d1, r1)

/-- One `\s+` of the pattern: require at least one whitespace character and
skip the whole run. -/
def reqWs (l : Str) : Option Str :=
  match l with
  | c :: r => if wsChar c then some (r.dropWhile wsChar) else none
  | [] => none

/-- The `(Right|Left|Centered)` alternation of the pattern. -/
def matchStance (l : Str) : Option (Stance × Str) :=
  if (str "Right").isPrefixOf l then some (.Right, l.drop 5)
  else if (str "Left").isPrefixOf l then some (.Left, l.drop 4)
  else if (str "Centered").isPrefixOf l then some (.Centered, l.drop 8)
  else none

/-- Whether the rest of the line matches `\s+@(\S+)$`: a nonempty whitespace
run, `@`, and a nonempty whitespace-free id running to the end of the line. -/
def checkEnd (l : Str) : Option Str :=
  match l.dropWhile wsChar with
  | '@' :: idc =>
    if l.takeWhile wsChar ≠ [] ∧ idc ≠ [] ∧ idc.all (fun c => !wsChar c) then some idc
    else none
  | _ => none

/-- The `(.+?)\s+@(\S+)$` tail of the pattern: the name is the shortest
nonempty prefix (of characters `.` can match) whose remainder is a
whitespace run, `@` and a final id token. -/
def tailGo (nameRev : Str) : Str → Option (Str × Str)
  | [] => (checkEnd []).map (fun id => (nameRev.reverse, id))
  | c :: r =>
    if (checkEnd (c :: r)).isSome then (checkEnd (c :: r)).map (fun id => (nameRev.reverse, id))
    else if lineTerm c then none else tailGo (c :: nameRev) r

def tailMatch (l : Str) : Option (Str × Str) :=
  match l with
  | [] => none
  | c :: rest => if lineTerm c then none else tailGo [c] rest

/-- Deterministic model of `PART_LINE_RE`:
`^(\d+\.?\d*)\s+(\d+\.?\d*)\s+(Right|Left|Centered)\s+(.+?)\s+@(\S+)$`.
Greedy digit/whitespace runs need no backtracking here: a shorter `\s+` run
leaves a whitespace character where a digit, a stance letter or `@` is
required, and the stance alternatives start with distinct letters. -/
def matchPartLine (l : Str) : Option (Str × Str × Stance × Str × Str) :=
  (matchNum l).bind (fun p1 =>
  (reqWs p1.2).bind (fun r2 =>
  (matchNum r2).bind (fun p2 =>
  (reqWs p2.2).bind (fun r4 =>
  (matchStance r4).bind (fun p3 =>
  (reqWs p3.2).bind (fun r6 =>
  (tailMatch r6).map (fun p4 => (p1.1, p2.1, p3.1, p4.1, p4.2))))))))

/-- The `beats` value pipeline of `parseSongFile`: split on whitespace runs,
drop empty tokens, parseFloat each. -/
def parseBeats (value : Str) : List JsNum :=
  ((splitRuns wsChar value).filter (fun v => v ≠ [])).map parseFloatQ

/-- The `SongPart` built from the five capture groups of a part-line match
(`parseFloat` on the two time groups). -/
def partOfRaw (r : Str × Str × Stance × Str × Str) : SongPart :=
  { startTime := parseFloatQ r.1, endTime := parseFloatQ r.2.1, stance := r.2.2.1,
    name := r.2.2.2.1, id := r.2.2.2.2 }

/-- The partial-metadata accumulator of `parseSongFile` (`result` together
with the two mode flags and the collected parts). -/
structure SongState where
  name? : Option Str
  artist? : Option Str
  duration? : Option JsNum
  bpm? : Option JsNum
  filepath? : Option Str
  beats? : Option (List JsNum)
  parts : List SongPart
  inBody : Bool
  inParts : Bool
deriving DecidableEq, Repr

def initSongState : SongState := ⟨none, none, none, none, none, none, [], false, false⟩

/-- One loop iteration of `parseSongFile` over a raw line. -/
def songStep (st : SongState) (rawLine : Str) : SongState :=
  let trimmed := jsTrim rawLine
  if trimmed = str "#BODY" then { st with inBody := true }
  else if st.inBody then
    if trimmed = str "parts:" then { st with inParts := true }
    else if st.inParts ∧ trimmed ≠ [] then
      match matchPartLine trimmed with
      | some r => { st with parts := st.parts ++ [partOfRaw r] }
      | none => st
    else st
  else if trimmed = [] then st
  else
    match splitFirstSpace trimmed with
    | none => st
    | some (rawKey, rawValue) =>
      let key := jsToLower rawKey
      let value := jsTrim rawValue
      if key = str "name" then { st with name? := some value }
      else if key = str "artist" then { st with artist? := some value }
      else if key = str "duration" then { st with duration? := some (parseFloatQ value) }
      else if key = str "bpm" then { st with bpm? := some (parseFloatQ value) }
      else if key = str "filepath" then { st with filepath? := some value }
      else if key = str "beats" then
        { st with beats? := some (parseBeats value) }
      else st

/-- Model of `parseSongFile`: fold the loop over the lines, then fill the
defaults (`?? ""`, `?? "unknown"`, `?? 0`, `?? []`). -/
def parseSongFile (content : Str) : SongFile :=
  let st := (splitLines content).foldl songStep initSongState
  { name := st.name?.getD []
    artist := st.artist?.getD (str "unknown")
    duration := st.duration?.getD (some 0)
    bpm := st.bpm?.getD (some 0)
    filepath := st.filepath?.getD []
    beats := st.beats?.getD []
    parts := st.parts }

/-- The line `serializeSongFile` emits for one part. -/
def partLineOf (p : SongPart) : Str :=
  jsNumToStr p.startTime ++ ' ' :: jsNumToStr p.endTime ++ ' ' :: stanceStr p.stance
    ++ ' ' :: p.name ++ ' ' :: '@' :: p.id

/-- Model of `serializeSongFile`: six metadata lines, then (only with parts)
a blank line, `#BODY`, `parts:` and one line per part; trailing newline. -/
def serializeSongFile (song : SongFile) : Str :=
  let lines :=
    [str "name " ++ song.name,
     str "artist " ++ song.artist,
     str "duration " ++ jsNumToStr song.duration,
     str "bpm " ++ jsNumToStr song.bpm,
     str "filepath " ++ song.filepath,
     str "beats " ++ joinSep [' '] (song.beats.map jsNumToStr)]
  let lines :=
    if song.parts = [] then lines
    else lines ++ [[], str "#BODY", str "parts:"] ++ song.parts.map partLineOf
  joinLines lines ++ ['\n']

-- ----- Move DSL (src/server/src/services/dsl.ts) -----

structure Move where
  id : Str
  name : Str
  description : Str
  tags : List Str
deriving DecidableEq, Repr

/-- The separator class of the `parseTags` split regex `/[,\s]+/`. -/
def tagSep (c : Char) : Bool := c == ',' || wsChar c

/-- Model of `parseTags`: strip `[` and `]`, split on comma/whitespace runs,
trim each token and drop the empty ones. -/
def parseTags (line : Str) : List Str :=
  ((splitRuns tagSep (line.filter (fun c => !(c == '[' || c == ']')))).map jsTrim).filter
    (fun t => t ≠ [])

/-- The character class of the trailing-punctuation regex `[.!?;:,]+$`. -/
def punctChar (c : Char) : Bool :=
  c == '.' || c == '!' || c == '?' || c == ';' || c == ':' || c == ','

/-- Model of `normalizeDescription`: trim; keep a blank result; otherwise
strip one trailing run of `.!?;:,` and lowercase. -/
def normalizeDescription (desc : Str) : Str :=
  let trimmed := jsTrim desc
  if trimmed = [] then trimmed
  else jsToLower (trimmed.rdropWhile punctChar)

/-- Model of `parseMoveBlock` with the `nanoid(10)` call made explicit as the
`freshId` argument (the only impure step of the source function). -/
def parseMoveBlock (text : Str) (freshId : Str) : Move :=
  let lines := (splitLines text).map jsTrim
  let nameLine := lines.getD 0 []
  let name :=
    match nameLine with
    | '#' :: r => jsTrim r
    | _ => nameLine
  let description := lines.getD 1 []
  let tagsLine := lines.getD 2 []
  { id := freshId, name := name, description := normalizeDescription description,
    tags := parseTags tagsLine }

/-- Model of `serializeMoveBlock`: three lines, no id. -/
def serializeMoveBlock (move : Move) : Str :=
  '#' :: ' ' :: move.name ++ '\n' :: move.description ++ '\n' :: joinSep (str ", ") move.tags

/-- The four `throw` sites of `parseMovesFile`, with the data their messages
interpolate. -/
inductive MovesErr where
  | newMoveBeforeId (lineNum : Nat) (openName : Str)
  | idWithoutName (lineNum : Nat)
  | unexpectedContent (lineNum : Nat) (line : Str)
  | endedWithoutId (openName : Str)
deriving DecidableEq, Repr

/-- The loop of `parseMovesFile`: `lineNum` is the number of the current
line (incremented at the top of each iteration as in the source), `cur` the
open block (`name`, collected lines), `acc` the finished moves. -/
def parseMovesLoop : List Str → Nat → Option (Str × List Str) → List Move →
    Except MovesErr (List Move)
  | [], _, none, acc => .ok acc
  | [], _, some (openName, _), _ => .error (.endedWithoutId openName)
  | rawLine :: rest, lineNum, cur, acc =>
    let line := jsTrim rawLine
    if line = [] ∧ cur = none then parseMovesLoop rest (lineNum + 1) cur acc
    else if startsWithChar '#' line then
      match cur with
      | some (openName, _) => .error (.newMoveBeforeId lineNum openName)
      | none => parseMovesLoop rest (lineNum + 1) (some (jsTrim (line.drop 1), [])) acc
    else if startsWithChar '@' line then
      match cur with
      | none => .error (.idWithoutName lineNum)
      | some (openName, collected) =>
        let desc := collected.getD 0 []
        let tagsLine := collected.getD 1 []
        parseMovesLoop rest (lineNum + 1) none
          (acc ++ [{ id := line.drop 1, name := openName,
                     description := normalizeDescription desc, tags := parseTags tagsLine }])
    else
      match cur with
      | none => .error (.unexpectedContent lineNum line)
      | some (openName, collected) =>
        parseMovesLoop rest (lineNum + 1) (some (openName, collected ++ [line])) acc

/-- Model of `parseMovesFile`: a fatal error aborts the whole parse (no
partial move list), exactly as a thrown exception does. -/
def parseMovesFile (content : Str) : Except MovesErr (List Move) :=
  parseMovesLoop (splitLines content) 1 none []

/-- Model of `serializeMovesFile`: blocks with their `@id` line, joined by a
blank line, trailing newline. -/
def serializeMovesFile (moves : List Move) : Str :=
  joinSep (str "\n\n") (moves.map (fun m => serializeMoveBlock m ++ '\n' :: '@' :: m.id))
    ++ ['\n']

-- ----- Parts validation (src/server/src/routes/songs.ts) -----

/-- Model of `partsOverlap`: open-interval overlap, JS comparisons (false on
NaN on either side). -/
def partsOverlap (a b : SongPart) : Bool :=
  jsLt a.startTime b.endTime && jsLt b.startTime a.endTime

/-- The request body of `POST /:id/parts` (stance arrives as a raw string). -/
structure PartReq where
  name : Str
  startTime : JsNum
  endTime : JsNum
  stance : Str
deriving DecidableEq, Repr

/-- Outcome of the `POST /:id/parts` handler on a loaded song file. -/
inductive PartPostResult where
  | badRequest (msg : Str)
  | conflict (withName : Str)
  | created (newPart : SongPart) (newSong : SongFile)
deriving DecidableEq, Repr

def stanceOf (s : Str) : Option Stance :=
  if s = str "Right" then some .Right
  else if s = str "Left" then some .Left
  else if s = str "Centered" then some .Centered
  else none

/-- Insertion sort by `startTime`, a stable model of
`parts.sort((a, b) => a.startTime - b.startTime)` on NaN-free parts. -/
def insertByStart (p : SongPart) : List SongPart → List SongPart
  | [] => [p]
  | q :: rest => if jsLt q.startTime p.startTime then q :: insertByStart p rest else p :: q :: rest

def sortByStart (ps : List SongPart) : List SongPart := ps.foldr insertByStart []

/-- Model of the pure core of the `POST /:id/parts` handler: validation,
overlap check against the loaded song, then insert-and-sort.  The file write
happens only in the `created` branch (see `writeEffect`). -/
def handlePostPart (song : SongFile) (req : PartReq) (freshId : Str) : PartPostResult :=
  if req.name = [] then .badRequest (str "name is required")
  else if jsLe req.endTime req.startTime then
    .badRequest (str "startTime and endTime must be numbers with endTime > startTime")
  else
    match stanceOf req.stance with
    | none => .badRequest (str "stance must be one of: Right, Left, Centered")
    | some stance =>
      let newRange : SongPart :=
        { id := [], name := [], startTime := req.startTime, endTime := req.endTime,
          stance := stance }
      match song.parts.find? (fun existing => partsOverlap newRange existing) with
      | some existing => .conflict existing.name
      | none =>
        let part : SongPart :=
          { id := freshId, name := jsTrim req.name, startTime := req.startTime,
            endTime := req.endTime, stance := stance }
        .created part { song with parts := sortByStart (song.parts ++ [part]) }

/-- What `fs.writeFileSync` writes for each outcome: nothing unless a part
was actually created. -/
def writeEffect : PartPostResult → Option Str
  | .created _ newSong => some (serializeSongFile newSong)
  | _ => none

instance {ε α : Type} [DecidableEq ε] [DecidableEq α] : DecidableEq (Except ε α) := fun x y =>
  match x, y with
  | .ok a, .ok b =>
    if h : a = b then isTrue (by rw [h]) else isFalse (fun hh => by cases hh; exact h rfl)
  | .error e, .error f =>
    if h : e = f then isTrue (by rw [h]) else isFalse (fun hh => by cases hh; exact h rfl)
  | .ok _, .error _ => isFalse (fun hh => by cases hh)
  | .error _, .ok _ => isFalse (fun hh => by cases hh)

-- ----- Grammar acceptor for the moves file (used to settle claim C3) -----

/-- Acceptor for the moves-file grammar, abstracting `parseMovesFile` to the
two parser states: outside any block (`inBlock = false`) a blank line is
skipped and `#` opens a block, anything else is malformed; inside a block
`#` is malformed, `@` closes, anything else (blank included) is content;
end of input is well-formed only outside a block. -/
def movesWF : Bool → List Str → Bool
  | false, [] => true
  | true, [] => false
  | inBlock, rawLine :: rest =>
    let line := jsTrim rawLine
    if line = [] ∧ inBlock = false then movesWF false rest
    else if startsWithChar '#' line then
      if inBlock then false else movesWF true rest
    else if startsWithChar '@' line then
      if inBlock then movesWF false rest else false
    else
      if inBlock then movesWF true rest else false

/-- JS's plain-decimal printing range: zero, or at least 1e-6 and below
1e21.  Outside it, number-to-string switches to exponent notation
(`1e-7`, `1e+21`), which the part-line grammar cannot reparse. -/
def decRange (q : ℚ) : Prop :=
  q = 0 ∨ (mkRat 1 1000000 ≤ q ∧ q < mkRat 1000000000000000000000 1)

instance decRange_decidable (q : ℚ) : Decidable (decRange q) :=
  inferInstanceAs (Decidable (_ ∨ _))

/-- A plainly serializable JS number: present (not NaN), nonnegative, with a
denominator dividing a power of ten, and inside the plain-decimal printing
range, so that JS prints it without exponent notation. -/
def goodNum : JsNum → Prop
  | none => False
  | some q => 0 ≤ q ∧ q.den ∣ 10 ^ q.den ∧ decRange q

instance goodNum_decidable : (x : JsNum) → Decidable (goodNum x)
  | none => isFalse (fun h => h)
  | some q => inferInstanceAs (Decidable (0 ≤ q ∧ q.den ∣ 10 ^ q.den ∧ decRange q))

/-- A part the song serializer can round-trip: a nonempty trim-stable name
free of line terminators, a nonempty whitespace-free id, and printable
times. -/
def WFPart (p : SongPart) : Prop :=
  p.name ≠ [] ∧ jsTrim p.name = p.name ∧ (∀ c ∈ p.name, lineTerm c = false) ∧
  p.id ≠ [] ∧ (∀ c ∈ p.id, wsChar c = false) ∧
  goodNum p.startTime ∧ goodNum p.endTime

instance WFPart_decidable (p : SongPart) : Decidable (WFPart p) := by
  unfold WFPart
  infer_instance

/-- A song the serializer round-trips: trim-stable single-line string
metadata, a nonempty artist, printable numbers and well-formed parts. -/
def WFSong (s : SongFile) : Prop :=
  jsTrim s.name = s.name ∧ '\n' ∉ s.name ∧
  s.artist ≠ [] ∧ jsTrim s.artist = s.artist ∧ '\n' ∉ s.artist ∧
  jsTrim s.filepath = s.filepath ∧ '\n' ∉ s.filepath ∧
  goodNum s.duration ∧ goodNum s.bpm ∧ (∀ b ∈ s.beats, goodNum b) ∧
  (∀ p ∈ s.parts, WFPart p)

instance WFSong_decidable (s : SongFile) : Decidable (WFSong s) := by
  unfold WFSong
  infer_instance

theorem parseMovesLoop_isOk (ls : List Str) : ∀ (n : Nat) (cur : Option (Str × List Str))
    (acc : List Move), (parseMovesLoop ls n cur acc).isOk = movesWF cur.isSome ls := by
  induction ls with
  | nil =>
    intro n cur acc
    rcases cur with _ | ⟨nm, cl⟩ <;> simp [parseMovesLoop, movesWF, Except.isOk, Except.toBool]
  | cons l rest ih =>
    intro n cur acc
    rcases cur with _ | ⟨nm, cl⟩
    · by_cases hblank : jsTrim l = []
      · simp [parseMovesLoop, movesWF, hblank, ih]
      · by_cases hh : startsWithChar '#' (jsTrim l) = true
        · simp [parseMovesLoop, movesWF, hblank, hh, ih]
        · by_cases ha : startsWithChar '@' (jsTrim l) = true
          · simp [parseMovesLoop, movesWF, hblank, hh, ha, Except.isOk, Except.toBool]
          · simp [parseMovesLoop, movesWF, hblank, hh, ha, Except.isOk, Except.toBool]
    · by_cases hh : startsWithChar '#' (jsTrim l) = true
      · simp [parseMovesLoop, movesWF, hh, Except.isOk, Except.toBool]
      · by_cases ha : startsWithChar '@' (jsTrim l) = true
        · simp [parseMovesLoop, movesWF, hh, ha, ih]
        · simp [parseMovesLoop, movesWF, hh, ha, ih]

/-- C3: `parseMovesFile` fails (returning an error and no partial move list)
exactly when the input is malformed in the sense of the `movesWF` grammar
acceptor: a `#` header while a block is open, an `@` line or any other
non-blank line while no block is open, or end of input inside a block.  In
particular `"# foo\ndesc\ntags\n# bar\n@id1"` fails with an error naming
line 4 and the open move `foo`, and `"# foo\ndesc"` fails with the
file-ended-without-id error for `foo`. -/
theorem parseMovesFile_error_characterization :
    (∀ s : Str, (parseMovesFile s).isOk = movesWF false (splitLines s)) ∧
    parseMovesFile (str "# foo\ndesc\ntags\n# bar\n@id1") =
      .error (.newMoveBeforeId 4 (str "foo")) ∧
    parseMovesFile (str "# foo\ndesc") = .error (.endedWithoutId (str "foo")) := by
  refine ⟨fun s => ?_, by decide, by decide⟩
  simpa using parseMovesLoop_isOk (splitLines s) 1 none []

/-- C4: `partsOverlap` is exactly the open-interval overlap test
`a.startTime < b.endTime ∧ a.endTime > b.startTime`; touching intervals
such as `[0,10)` and `[10,20)` do not overlap, while `[0,10)` and `[5,15)`
do. -/
theorem partsOverlap_characterization :
    (∀ (ida nma idb nmb : Str) (sta stb : Stance) (sa ea sb eb : ℚ),
      partsOverlap ⟨ida, nma, some sa, some ea, sta⟩ ⟨idb, nmb, some sb, some eb, stb⟩ = true ↔
        sa < eb ∧ ea > sb) ∧
    partsOverlap ⟨[], [], some 0, some 10, .Centered⟩ ⟨[], [], some 10, some 20, .Centered⟩
      = false ∧
    partsOverlap ⟨[], [], some 0, some 10, .Centered⟩ ⟨[], [], some 5, some 15, .Centered⟩
      = true := by
  refine ⟨fun ida nma idb nmb sta stb sa ea sb eb => ?_, by decide, by decide⟩
  simp [partsOverlap, jsLt, gt_iff_lt, and_comm]

/-- C7: `parseTags` strips brackets, splits on comma/whitespace runs, trims
and drops empties, keeping order and duplicates: the three spec examples
all yield `["punch", "basic"]`, and a repeated tag stays repeated in order. -/
theorem parseTags_examples :
    parseTags (str "[punch] [basic]") = [str "punch", str "basic"] ∧
    parseTags (str "punch, basic") = [str "punch", str "basic"] ∧
    parseTags (str "punch basic") = [str "punch", str "basic"] ∧
    parseTags (str "b, a, b") = [str "b", str "a", str "b"] := by
  refine ⟨by decide, by decide, by decide, by decide⟩

/-- C5: with a loaded song whose only part is `[0,60) "Intro"`, a request to
add `[30,90) "Verse"` is answered with a conflict naming `Intro`, and no
file content is written (the serialized state is untouched). -/
theorem postPart_overlap_rejected :
    ∀ (song : SongFile) (freshId : Str),
      song.parts = [{ id := str "id1", name := str "Intro", startTime := some 0,
                      endTime := some 60, stance := Stance.Centered }] →
      handlePostPart song
          { name := str "Verse", startTime := some 30, endTime := some 90,
            stance := str "Centered" } freshId = .conflict (str "Intro") ∧
      writeEffect (handlePostPart song
          { name := str "Verse", startTime := some 30, endTime := some 90,
            stance := str "Centered" } freshId) = none := by
  intro song freshId hparts
  have hres : handlePostPart song
      { name := str "Verse", startTime := some 30, endTime := some 90,
        stance := str "Centered" } freshId = .conflict (str "Intro") := by
    unfold handlePostPart
    rw [hparts]
    rfl
  exact ⟨hres, by rw [hres]; rfl⟩

def introSongEx : SongFile :=
  { name := str "S", artist := str "A", duration := some 120, bpm := some 100,
    filepath := str "files/audio/s.wav", beats := [some 1],
    parts := [{ id := str "id1", name := str "Intro", startTime := some 0,
                endTime := some 60, stance := Stance.Centered }] }

theorem postPart_overlap_rejected_witness :
    handlePostPart introSongEx
        { name := str "Verse", startTime := some 30, endTime := some 90,
          stance := str "Centered" } (str "zzz") = .conflict (str "Intro") ∧
      writeEffect (handlePostPart introSongEx
        { name := str "Verse", startTime := some 30, endTime := some 90,
          stance := str "Centered" } (str "zzz")) = none :=
  postPart_overlap_rejected introSongEx (str "zzz") (by decide)

-- ----- Character-class helper lemmas -----

theorem char_toNat_inj {a b : Char} (h : a.toNat = b.toNat) : a = b := by
  apply Char.ext
  apply UInt32.ext
  exact h

theorem char_beq_false_of_toNat_lt {c d : Char} (h : d.toNat < c.toNat) : (c == d) = false := by
  apply beq_eq_false_iff_ne.mpr
  intro he
  subst he
  omega

theorem ofNat_add32_toNat : ∀ (n : Nat), 65 ≤ n → n ≤ 90 → (Char.ofNat (n + 32)).toNat = n + 32 := by
  intro n h1 h2
  interval_cases n <;> decide

theorem jsToLowerChar_idem (c : Char) : jsToLowerChar (jsToLowerChar c) = jsToLowerChar c := by
  unfold jsToLowerChar
  by_cases h : 65 ≤ c.toNat ∧ c.toNat ≤ 90
  · rw [if_pos h]
    have ht := ofNat_add32_toNat c.toNat h.1 h.2
    rw [if_neg (by omega)]
  · rw [if_neg h, if_neg h]

theorem jsToLower_idem (s : Str) : jsToLower (jsToLower s) = jsToLower s := by
  unfold jsToLower
  rw [List.map_map]
  apply List.map_congr_left
  intro c _
  exact jsToLowerChar_idem c

theorem punctChar_eq_false_of_ge (c : Char) (h : 65 ≤ c.toNat) : punctChar c = false := by
  have hd : ∀ d : Char, d.toNat < 65 → (c == d) = false := by
    intro d hlt
    exact char_beq_false_of_toNat_lt (by omega)
  unfold punctChar
  rw [hd '.' (by decide), hd '!' (by decide), hd '?' (by decide), hd ';' (by decide),
      hd ':' (by decide), hd ',' (by decide)]
  rfl

theorem punctChar_jsToLowerChar (c : Char) : punctChar (jsToLowerChar c) = punctChar c := by
  unfold jsToLowerChar
  by_cases h : 65 ≤ c.toNat ∧ c.toNat ≤ 90
  · rw [if_pos h]
    rw [punctChar_eq_false_of_ge _ (by rw [ofNat_add32_toNat c.toNat h.1 h.2]; omega),
        punctChar_eq_false_of_ge _ (by omega)]
  · rw [if_neg h]

-- ----- Shape of normalizeDescription output -----

theorem normalize_lower_stable (x : Str) :
    jsToLower (normalizeDescription x) = normalizeDescription x := by
  unfold normalizeDescription
  by_cases h : jsTrim x = []
  · rw [if_pos h, h]
    rfl
  · rw [if_neg h]
    exact jsToLower_idem _

theorem dropWhile_eq_self_head (p : Char → Bool) (c : Char) (zr : Str)
    (hz : (c :: zr).dropWhile p = c :: zr) : p c = false := by
  by_contra hp
  rw [Bool.not_eq_false] at hp
  rw [List.dropWhile_cons, if_pos hp] at hz
  have hlen := congrArg List.length hz
  have hle : (zr.dropWhile p).length ≤ zr.length := (List.dropWhile_suffix _).length_le
  simp only [List.length_cons] at hlen
  omega

theorem rdropWhile_map_lower_stable (y : Str) (hy : y.rdropWhile punctChar = y) :
    (y.map jsToLowerChar).rdropWhile punctChar = y.map jsToLowerChar := by
  have hy' : y.reverse.dropWhile punctChar = y.reverse := by
    have hr := congrArg List.reverse hy
    rwa [List.rdropWhile, List.reverse_reverse] at hr
  have key : (y.reverse.map jsToLowerChar).dropWhile punctChar = y.reverse.map jsToLowerChar := by
    cases hz : y.reverse with
    | nil => simp
    | cons c zr =>
      rw [hz] at hy'
      have hc : punctChar c = false := dropWhile_eq_self_head punctChar c zr hy'
      simp only [List.map_cons, List.dropWhile_cons, punctChar_jsToLowerChar, hc]
      rfl
  show ((y.map jsToLowerChar).reverse.dropWhile punctChar).reverse = y.map jsToLowerChar
  rw [← List.map_reverse, key, List.map_reverse, List.reverse_reverse]

/-- Unfolding equation of `normalizeDescription` with the blank case made
literal. -/
theorem normalizeDescription_eq (s : Str) :
    normalizeDescription s =
      if jsTrim s = [] then [] else jsToLower ((jsTrim s).rdropWhile punctChar) := by
  unfold normalizeDescription
  by_cases h : jsTrim s = []
  · rw [if_pos h, if_pos h, h]
  · rw [if_neg h, if_neg h]

theorem normalize_rdrop_punct_stable (x : Str) :
    (normalizeDescription x).rdropWhile punctChar = normalizeDescription x := by
  rw [normalizeDescription_eq]
  by_cases h : jsTrim x = []
  · rw [if_pos h]
    rfl
  · rw [if_neg h]
    exact rdropWhile_map_lower_stable _ (List.rdropWhile_idempotent punctChar (jsTrim x))

/-- Shared helper: the normalization of any string is itself normalized,
provided it carries no trailing whitespace (stripping a trailing
punctuation run can expose whitespace that a fresh trim would remove). -/
theorem normalize_idem_helper (x : Str)
    (h : jsTrim (normalizeDescription x) = normalizeDescription x) :
    normalizeDescription (normalizeDescription x) = normalizeDescription x := by
  by_cases hy : normalizeDescription x = []
  · rw [hy]
    rfl
  · rw [normalizeDescription_eq (normalizeDescription x), h, if_neg hy,
        normalize_rdrop_punct_stable x, normalize_lower_stable x]

theorem char_beq_false_of_toNat_ne {c d : Char} (h : c.toNat ≠ d.toNat) : (c == d) = false := by
  apply beq_eq_false_iff_ne.mpr
  intro he
  subst he
  exact h rfl

theorem wsChar_eq_false_of_range (c : Char) (h1 : 33 ≤ c.toNat) (h2 : c.toNat ≤ 126) :
    wsChar c = false := by
  have hd : ∀ d : Char, (d.toNat < 33 ∨ 126 < d.toNat) → (c == d) = false := by
    intro d hdlt
    exact char_beq_false_of_toNat_ne (by omega)
  have hrange : (8192 ≤ c.toNat && c.toNat ≤ 8202) = false := by
    have hn : ¬(8192 ≤ c.toNat) := by omega
    simp [hn]
  unfold wsChar
  rw [hrange, hd ' ' (by decide), hd '\t' (by decide), hd '\n' (by decide), hd '\r' (by decide),
      hd '\x0b' (by decide), hd '\x0c' (by decide), hd ' ' (by decide),
      hd ' ' (by decide), hd ' ' (by decide), hd ' ' (by decide),
      hd ' ' (by decide), hd ' ' (by decide), hd '　' (by decide),
      hd '﻿' (by decide)]
  rfl

theorem lineTerm_eq_false_of_range (c : Char) (h1 : 33 ≤ c.toNat) (h2 : c.toNat ≤ 126) :
    lineTerm c = false := by
  have hd : ∀ d : Char, (d.toNat < 33 ∨ 126 < d.toNat) → (c == d) = false := by
    intro d hdlt
    exact char_beq_false_of_toNat_ne (by omega)
  unfold lineTerm
  rw [hd '\n' (by decide), hd '\r' (by decide), hd ' ' (by decide), hd ' ' (by decide)]
  rfl

/-- C6 counterexample: `normalizeDescription` is not idempotent as claimed:
on `"a ."` the punctuation strip exposes a trailing space (`"a "`), which a
second application trims away (`"a"`). -/
theorem normalizeDescription_not_idempotent :
    normalizeDescription (normalizeDescription (str "a .")) ≠ normalizeDescription (str "a .") := by
  decide

/-- C6 (amended): `normalizeDescription` is idempotent on every string whose
normalized form carries no leading or trailing whitespace, that is, whenever
stripping the trailing punctuation run exposes no whitespace. -/
theorem normalizeDescription_idem_of_trimmed :
    ∀ x : Str, jsTrim (normalizeDescription x) = normalizeDescription x →
      normalizeDescription (normalizeDescription x) = normalizeDescription x :=
  fun x h => normalize_idem_helper x h

theorem normalizeDescription_idem_of_trimmed_witness :
    jsTrim (normalizeDescription (str "  Quick Jab!!  "))
        = normalizeDescription (str "  Quick Jab!!  ") ∧
      normalizeDescription (normalizeDescription (str "  Quick Jab!!  "))
        = normalizeDescription (str "  Quick Jab!!  ") :=
  ⟨by decide, normalizeDescription_idem_of_trimmed (str "  Quick Jab!!  ") (by decide)⟩

-- ----- Descriptions produced by the move parsers (claim C10) -----

/-- A parsed move description is in the image of `normalizeDescription`, and
is a fixpoint of it whenever it is itself trimmed. -/
def descInvariant (m : Move) : Prop :=
  (∃ raw : Str, m.description = normalizeDescription raw) ∧
  (jsTrim m.description = m.description →
    normalizeDescription m.description = m.description)

theorem descInvariant_of_normalized (raw : Str) (m : Move)
    (hm : m.description = normalizeDescription raw) : descInvariant m := by
  constructor
  · exact ⟨raw, hm⟩
  · intro ht
    rw [hm] at ht ⊢
    exact normalize_idem_helper raw ht

theorem parseMovesLoop_desc (ls : List Str) : ∀ (n : Nat) (cur : Option (Str × List Str))
    (acc : List Move) (ms : List Move), (∀ m ∈ acc, descInvariant m) →
    parseMovesLoop ls n cur acc = .ok ms → ∀ m ∈ ms, descInvariant m := by
  induction ls with
  | nil =>
    intro n cur acc ms hacc hok
    rcases cur with _ | ⟨nm, cl⟩
    · simp only [parseMovesLoop] at hok
      cases hok
      exact hacc
    · simp only [parseMovesLoop] at hok
      cases hok
  | cons l rest ih =>
    intro n cur acc ms hacc hok
    rcases cur with _ | ⟨nm, cl⟩
    · by_cases hblank : jsTrim l = []
      · simp only [parseMovesLoop, hblank] at hok
        simp at hok
        exact ih _ _ _ _ hacc hok
      · by_cases hh : startsWithChar '#' (jsTrim l) = true
        · simp only [parseMovesLoop, hblank, hh] at hok
          simp [hblank] at hok
          exact ih _ _ _ _ hacc hok
        · by_cases ha : startsWithChar '@' (jsTrim l) = true
          · simp [parseMovesLoop, hblank, hh, ha] at hok
          · simp [parseMovesLoop, hblank, hh, ha] at hok
    · by_cases hh : startsWithChar '#' (jsTrim l) = true
      · simp [parseMovesLoop, hh] at hok
      · by_cases ha : startsWithChar '@' (jsTrim l) = true
        · simp only [parseMovesLoop, hh, ha] at hok
          simp at hok
          refine ih _ _ _ _ ?_ hok
          intro m hm
          rcases List.mem_append.mp hm with hmem | hmem
          · exact hacc m hmem
          · rw [List.mem_singleton] at hmem
            subst hmem
            exact descInvariant_of_normalized (cl[0]?.getD []) _ rfl
        · simp only [parseMovesLoop, hh, ha] at hok
          simp at hok
          exact ih _ _ _ _ hacc hok

/-- C10 counterexample: the move parsed from description line `"a ."` has
description `"a "`, which is not a fixpoint of `normalizeDescription`. -/
theorem parsed_description_not_fixpoint :
    parseMovesFile (str "# n\na .\n@i") =
      .ok [{ id := str "i", name := str "n", description := str "a ", tags := [] }] ∧
    normalizeDescription (str "a ") ≠ str "a " := ⟨by decide, by decide⟩

/-- C10 (amended): every move produced by `parseMovesFile` or
`parseMoveBlock` has a description in the image of `normalizeDescription`
(it equals `normalizeDescription` of the raw line), and that description is
a fixpoint of `normalizeDescription` whenever it carries no trailing
whitespace; a raw line such as `"a ."` shows the unconditional fixpoint
property fails. -/
theorem parsed_descriptions_normalized :
    (∀ (s : Str) (ms : List Move), parseMovesFile s = .ok ms → ∀ m ∈ ms, descInvariant m) ∧
    (∀ (t freshId : Str), descInvariant (parseMoveBlock t freshId)) := by
  constructor
  · intro s ms hok
    exact parseMovesLoop_desc (splitLines s) 1 none [] ms (by simp) hok
  · intro t freshId
    exact descInvariant_of_normalized (((splitLines t).map jsTrim).getD 1 []) _ rfl

theorem parsed_descriptions_normalized_witness :
    normalizeDescription (str "hi") = str "hi" := by
  have h := (parsed_descriptions_normalized.1 (str "# n\nHi!\n@i")
      [{ id := str "i", name := str "n", description := str "hi", tags := [] }] (by decide)
      { id := str "i", name := str "n", description := str "hi", tags := [] } (by decide)).2
  exact h (by decide)

-- ----- String toolkit lemmas -----

theorem isDigit_toNat {c : Char} (h : c.isDigit = true) : 48 ≤ c.toNat ∧ c.toNat ≤ 57 := by
  simp [Char.isDigit] at h
  exact h

theorem takeWhile_append_all {p : Char → Bool} {l1 l2 : Str} (h : ∀ c ∈ l1, p c = true) :
    (l1 ++ l2).takeWhile p = l1 ++ l2.takeWhile p := by
  rw [List.takeWhile_append, if_pos]
  rw [List.takeWhile_eq_self_iff.mpr h]

theorem dropWhile_append_all {p : Char → Bool} {l1 l2 : Str} (h : ∀ c ∈ l1, p c = true) :
    (l1 ++ l2).dropWhile p = l2.dropWhile p := by
  rw [List.dropWhile_append, if_pos]
  rw [List.dropWhile_eq_nil_iff.mpr h]
  rfl

theorem digit_not_ws {c : Char} (h : c.isDigit = true) : wsChar c = false := by
  have hb := isDigit_toNat h
  exact wsChar_eq_false_of_range c (by omega) (by omega)

theorem startsWithChar_cons (c d : Char) (r : Str) : startsWithChar c (d :: r) = (d == c) := rfl

theorem startsWithChar_nil (c : Char) : startsWithChar c [] = false := rfl

/-- `parseFloat` of a digit string with an optional point-and-digits tail:
the exact rational the digits denote. -/
theorem parseFloatQ_decimal (d1 d2 : Str) (h1 : d1 ≠ []) (hall1 : ∀ c ∈ d1, c.isDigit = true)
    (hall2 : ∀ c ∈ d2, c.isDigit = true) :
    parseFloatQ (d1 ++ '.' :: d2) = some (mkRat (digitsVal d1 * 10 ^ d2.length + digitsVal d2)
      (10 ^ d2.length)) := by
  obtain ⟨c, rest, rfl⟩ := List.exists_cons_of_ne_nil h1
  have hc : c.isDigit = true := hall1 c (by simp)
  have hcb := isDigit_toNat hc
  have hws : wsChar c = false := digit_not_ws hc
  have hdw : ((c :: rest) ++ '.' :: d2).dropWhile wsChar = (c :: rest) ++ '.' :: d2 := by
    rw [List.cons_append, List.dropWhile_cons, hws]
    simp
  have htake : ((c :: rest) ++ '.' :: d2).takeWhile Char.isDigit = c :: rest := by
    rw [takeWhile_append_all hall1, List.takeWhile_cons]
    simp
  have hdrop : ((c :: rest) ++ '.' :: d2).dropWhile Char.isDigit = '.' :: d2 := by
    rw [dropWhile_append_all hall1, List.dropWhile_cons]
    simp
  have htk2 : d2.takeWhile Char.isDigit = d2 := List.takeWhile_eq_self_iff.mpr hall2
  have hdp2 : d2.dropWhile Char.isDigit = [] := List.dropWhile_eq_nil_iff.mpr hall2
  simp only [parseFloatQ]
  rw [hdw, List.cons_append, startsWithChar_cons, startsWithChar_cons,
      char_beq_false_of_toNat_ne (by have hboth : ('+').toNat = 43 ∧ ('-').toNat = 45 := (by decide); omega),
      char_beq_false_of_toNat_ne (by have hboth : ('+').toNat = 43 ∧ ('-').toNat = 45 := (by decide); omega)]
  simp only [Bool.or_false, Bool.false_eq_true, if_false]
  rw [← List.cons_append]
  unfold pfDigits
  rw [htake, hdrop]
  unfold pfFraction
  simp only [startsWithChar_cons, beq_self_eq_true, if_true, List.drop_one, List.tail_cons,
    htk2, hdp2]
  rw [if_neg (by simp)]
  unfold pfExponent
  rw [startsWithChar_nil]
  simp only [Bool.or_false, Bool.false_eq_true, if_false]
  unfold pfFinish
  simp

/-- `parseFloat` of a pure digit string. -/
theorem parseFloatQ_digits (d1 : Str) (h1 : d1 ≠ []) (hall : ∀ c ∈ d1, c.isDigit = true) :
    parseFloatQ d1 = some (mkRat (digitsVal d1) 1) := by
  obtain ⟨c, rest, rfl⟩ := List.exists_cons_of_ne_nil h1
  have hc : c.isDigit = true := hall c (by simp)
  have hcb := isDigit_toNat hc
  have hws : wsChar c = false := digit_not_ws hc
  have hdw : (c :: rest).dropWhile wsChar = c :: rest := by
    rw [List.dropWhile_cons, hws]
    simp
  have htake : (c :: rest).takeWhile Char.isDigit = c :: rest := List.takeWhile_eq_self_iff.mpr hall
  have hdrop : (c :: rest).dropWhile Char.isDigit = [] := List.dropWhile_eq_nil_iff.mpr hall
  simp only [parseFloatQ]
  rw [hdw, startsWithChar_cons, startsWithChar_cons,
      char_beq_false_of_toNat_ne (by have hboth : ('+').toNat = 43 ∧ ('-').toNat = 45 := (by decide); omega),
      char_beq_false_of_toNat_ne (by have hboth : ('+').toNat = 43 ∧ ('-').toNat = 45 := (by decide); omega)]
  simp only [Bool.or_false, Bool.false_eq_true, if_false]
  unfold pfDigits
  rw [htake, hdrop]
  unfold pfFraction
  rw [startsWithChar_nil]
  simp only [Bool.false_eq_true, if_false]
  rw [if_neg (by simp)]
  unfold pfExponent
  rw [startsWithChar_nil]
  simp only [Bool.or_false, Bool.false_eq_true, if_false]
  unfold pfFinish
  simp [digitsVal]

-- ----- Which lines touch which parser state (claims C8, C9) -----

/-- The lowercased key a metadata line would select, if any: the text before
the first space of the trimmed line. -/
def lineKey (l : Str) : Option Str :=
  (splitFirstSpace (jsTrim l)).map (fun p => jsToLower p.1)

theorem foldl_preserve {α β : Type} (f : β → α → β) (P : β → Prop) :
    ∀ (ls : List α) (b : β), P b → (∀ y ∈ ls, ∀ st, P st → P (f st y)) → P (ls.foldl f b) := by
  intro ls
  induction ls with
  | nil =>
    intro b hb _
    exact hb
  | cons x xs ih =>
    intro b hb hstep
    exact ih _ (hstep x (by simp) b hb) (fun y hy => hstep y (by simp [hy]))

theorem songStep_fields (st : SongState) (l : Str) :
    ((songStep st l).name? = st.name? ∨ lineKey l = some (str "name")) ∧
    ((songStep st l).artist? = st.artist? ∨ lineKey l = some (str "artist")) ∧
    ((songStep st l).duration? = st.duration? ∨ lineKey l = some (str "duration")) ∧
    ((songStep st l).bpm? = st.bpm? ∨ lineKey l = some (str "bpm")) ∧
    ((songStep st l).filepath? = st.filepath? ∨ lineKey l = some (str "filepath")) ∧
    ((songStep st l).beats? = st.beats? ∨ lineKey l = some (str "beats")) ∧
    ((songStep st l).parts = st.parts ∨
      ∃ r, matchPartLine (jsTrim l) = some r ∧ (songStep st l).parts = st.parts ++ [partOfRaw r]) := by
  unfold songStep
  by_cases h1 : jsTrim l = str "#BODY"
  · simp [h1]
  · rw [if_neg h1]
    by_cases h2 : st.inBody = true
    · rw [if_pos h2]
      by_cases h3 : jsTrim l = str "parts:"
      · simp [h3]
      · rw [if_neg h3]
        by_cases h4 : st.inParts = true ∧ ¬jsTrim l = []
        · rw [if_pos h4]
          cases hm : matchPartLine (jsTrim l) with
          | none => simp
          | some r => simp [hm]
        · rw [if_neg h4]
          simp
    · rw [if_neg h2]
      by_cases h5 : jsTrim l = []
      · simp [h5]
      · rw [if_neg h5]
        cases hs : splitFirstSpace (jsTrim l) with
        | none => simp
        | some kv =>
          obtain ⟨k, v⟩ := kv
          simp only [lineKey, hs, Option.map_some]
          split_ifs <;> simp_all

/-- No line of the input selects metadata key `k`. -/
def noKeyLine (k : Str) (s : Str) : Prop := ∀ l ∈ splitLines s, lineKey l ≠ some k

/-- No line of the input matches the part-line pattern. -/
def noPartLine (s : Str) : Prop := ∀ l ∈ splitLines s, matchPartLine (jsTrim l) = none

instance (k s : Str) : Decidable (noKeyLine k s) := by
  unfold noKeyLine
  exact List.decidableBAll _ _

instance (s : Str) : Decidable (noPartLine s) := by
  unfold noPartLine
  exact List.decidableBAll _ _

/-- C8: every metadata key absent from the input yields its default
(`name=""`, `artist="unknown"`, `duration=0`, `bpm=0`, `filepath=""`,
`beats=[]`, and `parts=[]` when no line matches the part pattern); in
particular the empty input yields exactly the default `SongFile`. -/
theorem parseSongFile_defaults :
    (∀ s : Str, noKeyLine (str "name") s → (parseSongFile s).name = []) ∧
    (∀ s : Str, noKeyLine (str "artist") s → (parseSongFile s).artist = str "unknown") ∧
    (∀ s : Str, noKeyLine (str "duration") s → (parseSongFile s).duration = some 0) ∧
    (∀ s : Str, noKeyLine (str "bpm") s → (parseSongFile s).bpm = some 0) ∧
    (∀ s : Str, noKeyLine (str "filepath") s → (parseSongFile s).filepath = []) ∧
    (∀ s : Str, noKeyLine (str "beats") s → (parseSongFile s).beats = []) ∧
    (∀ s : Str, noPartLine s → (parseSongFile s).parts = []) ∧
    parseSongFile (str "") =
      { name := [], artist := str "unknown", duration := some 0, bpm := some 0,
        filepath := [], beats := [], parts := [] } := by
  refine ⟨fun s hno => ?_, fun s hno => ?_, fun s hno => ?_, fun s hno => ?_, fun s hno => ?_,
    fun s hno => ?_, fun s hno => ?_, by decide⟩
  · have hst : ((splitLines s).foldl songStep initSongState).name? = none :=
      foldl_preserve songStep (fun st => st.name? = none) (splitLines s) initSongState rfl
        (fun y hy st hst => by
          rcases (songStep_fields st y).1 with h | h
          · rw [h, hst]
          · exact absurd h (hno y hy))
    simp [parseSongFile, hst]
  · have hst : ((splitLines s).foldl songStep initSongState).artist? = none :=
      foldl_preserve songStep (fun st => st.artist? = none) (splitLines s) initSongState rfl
        (fun y hy st hst => by
          rcases (songStep_fields st y).2.1 with h | h
          · rw [h, hst]
          · exact absurd h (hno y hy))
    simp [parseSongFile, hst]
  · have hst : ((splitLines s).foldl songStep initSongState).duration? = none :=
      foldl_preserve songStep (fun st => st.duration? = none) (splitLines s) initSongState rfl
        (fun y hy st hst => by
          rcases (songStep_fields st y).2.2.1 with h | h
          · rw [h, hst]
          · exact absurd h (hno y hy))
    simp [parseSongFile, hst]
  · have hst : ((splitLines s).foldl songStep initSongState).bpm? = none :=
      foldl_preserve songStep (fun st => st.bpm? = none) (splitLines s) initSongState rfl
        (fun y hy st hst => by
          rcases (songStep_fields st y).2.2.2.1 with h | h
          · rw [h, hst]
          · exact absurd h (hno y hy))
    simp [parseSongFile, hst]
  · have hst : ((splitLines s).foldl songStep initSongState).filepath? = none :=
      foldl_preserve songStep (fun st => st.filepath? = none) (splitLines s) initSongState rfl
        (fun y hy st hst => by
          rcases (songStep_fields st y).2.2.2.2.1 with h | h
          · rw [h, hst]
          · exact absurd h (hno y hy))
    simp [parseSongFile, hst]
  · have hst : ((splitLines s).foldl songStep initSongState).beats? = none :=
      foldl_preserve songStep (fun st => st.beats? = none) (splitLines s) initSongState rfl
        (fun y hy st hst => by
          rcases (songStep_fields st y).2.2.2.2.2.1 with h | h
          · rw [h, hst]
          · exact absurd h (hno y hy))
    simp [parseSongFile, hst]
  · have hst : ((splitLines s).foldl songStep initSongState).parts = [] :=
      foldl_preserve songStep (fun st => st.parts = []) (splitLines s) initSongState rfl
        (fun y hy st hst => by
          rcases (songStep_fields st y).2.2.2.2.2.2 with h | ⟨r, hr, _⟩
          · rw [h, hst]
          · rw [hno y hy] at hr
            cases hr)
    simp [parseSongFile, hst]

theorem parseSongFile_defaults_witness :
    (parseSongFile (str "bpm 120")).name = [] ∧
      (parseSongFile (str "bpm 120")).beats = [] ∧
      (parseSongFile (str "bpm 120")).parts = [] :=
  ⟨parseSongFile_defaults.1 (str "bpm 120") (by decide),
   parseSongFile_defaults.2.2.2.2.2.1 (str "bpm 120") (by decide),
   parseSongFile_defaults.2.2.2.2.2.2.1 (str "bpm 120") (by decide)⟩

theorem matchNum_parse {l g r : Str} (h : matchNum l = some (g, r)) :
    ∃ q : ℚ, parseFloatQ g = some q ∧ 0 ≤ q := by
  have hall1 : ∀ c ∈ l.takeWhile Char.isDigit, c.isDigit = true :=
    fun c hc => List.mem_takeWhile_imp hc
  simp only [matchNum] at h
  by_cases hd : l.takeWhile Char.isDigit = []
  · rw [if_pos hd] at h
    cases h
  · rw [if_neg hd] at h
    split at h
    · rename_i r2 heq
      rw [Option.some.injEq, Prod.mk.injEq] at h
      obtain ⟨hg, hr⟩ := h
      subst hg
      have hall2 : ∀ c ∈ r2.takeWhile Char.isDigit, c.isDigit = true :=
        fun c hc => List.mem_takeWhile_imp hc
      refine ⟨_, parseFloatQ_decimal _ _ hd hall1 hall2, ?_⟩
      rw [Rat.mkRat_eq_div]
      positivity
    · rw [Option.some.injEq, Prod.mk.injEq] at h
      obtain ⟨hg, hr⟩ := h
      subst hg
      refine ⟨_, parseFloatQ_digits _ hd hall1, ?_⟩
      rw [Rat.mkRat_eq_div]
      positivity

theorem matchPartLine_inv {l : Str} {r : Str × Str × Stance × Str × Str}
    (h : matchPartLine l = some r) :
    (∃ q : ℚ, parseFloatQ r.1 = some q ∧ 0 ≤ q) ∧
      ∃ q : ℚ, parseFloatQ r.2.1 = some q ∧ 0 ≤ q := by
  simp only [matchPartLine, Option.bind_eq_some, Option.map_eq_some'] at h
  obtain ⟨⟨n1, r1⟩, h1, r2, h2, ⟨n2, r3⟩, h3, r4, h4, ⟨stc, r5⟩, h5, r6, h6, ⟨nm, idv⟩, h7, hr⟩ := h
  subst hr
  exact ⟨matchNum_parse h1, matchNum_parse h3⟩

/-- C9: `parseSongFile` is total and lenient: inside the parts section a
line that fails the part pattern leaves the state untouched (silently
skipped, no error), and every part the parser does produce has
non-NaN, nonnegative start and end times, because the pattern admits only
unsigned decimal literals for the two time fields. -/
theorem parseSongFile_parts_safe :
    (∀ (st : SongState) (l : Str), st.inBody = true → st.inParts = true →
      matchPartLine (jsTrim l) = none → songStep st l = st) ∧
    (∀ s : Str, ∀ p ∈ (parseSongFile s).parts,
      (∃ q : ℚ, p.startTime = some q ∧ 0 ≤ q) ∧ ∃ q : ℚ, p.endTime = some q ∧ 0 ≤ q) := by
  constructor
  · intro st l hB hP hm
    unfold songStep
    by_cases h1 : jsTrim l = str "#BODY"
    · rw [if_pos h1]
      cases st
      simp_all
    · rw [if_neg h1, if_pos hB]
      by_cases h3 : jsTrim l = str "parts:"
      · rw [if_pos h3]
        cases st
        simp_all
      · rw [if_neg h3]
        by_cases h4 : st.inParts = true ∧ ¬jsTrim l = []
        · rw [if_pos h4, hm]
        · rw [if_neg h4]
  · intro s
    apply foldl_preserve songStep
      (fun st => ∀ p ∈ st.parts,
        (∃ q : ℚ, p.startTime = some q ∧ 0 ≤ q) ∧ ∃ q : ℚ, p.endTime = some q ∧ 0 ≤ q)
      (splitLines s) initSongState (by simp [initSongState])
    intro y hy st hst
    rcases (songStep_fields st y).2.2.2.2.2.2 with h | ⟨r, hr, hparts⟩
    · rw [h]
      exact hst
    · rw [hparts]
      intro p hp
      rcases List.mem_append.mp hp with hmem | hmem
      · exact hst p hmem
      · rw [List.mem_singleton] at hmem
        subst hmem
        exact matchPartLine_inv hr

def partsStateEx : SongState :=
  { name? := none, artist? := none, duration? := none, bpm? := none, filepath? := none,
    beats? := none, parts := [], inBody := true, inParts := true }

theorem parseSongFile_parts_safe_witness :
    songStep partsStateEx (str "not a part line") = partsStateEx ∧
    ((∃ q : ℚ, (partOfRaw (str "1", str "2", Stance.Right, str "x", str "i")).startTime
        = some q ∧ 0 ≤ q) ∧
      ∃ q : ℚ, (partOfRaw (str "1", str "2", Stance.Right, str "x", str "i")).endTime
        = some q ∧ 0 ≤ q) :=
  ⟨parseSongFile_parts_safe.1 partsStateEx (str "not a part line") (by decide) (by decide)
      (by decide),
   parseSongFile_parts_safe.2 (str "#BODY\nparts:\n1 2 Right x @i")
     (partOfRaw (str "1", str "2", Stance.Right, str "x", str "i")) (by decide)⟩

-- ----- Trim-stability toolkit -----

theorem jsTrim_within (s : Str) : jsTrim s <:+: s :=
  ((List.rdropWhile_prefix wsChar (s.dropWhile wsChar)).isInfix).trans
    (List.dropWhile_suffix wsChar).isInfix

theorem jsTrim_eq_of_length {s : Str} (h : (jsTrim s).length = s.length) : jsTrim s = s :=
  (jsTrim_within s).eq_of_length h

/-- A trim-stable string survives both one-sided trims separately. -/
theorem trimStable_parts {s : Str} (h : jsTrim s = s) :
    s.dropWhile wsChar = s ∧ s.rdropWhile wsChar = s := by
  have h1 : (s.dropWhile wsChar).length ≤ s.length := (List.dropWhile_suffix wsChar).length_le
  have h2 : (jsTrim s).length ≤ (s.dropWhile wsChar).length :=
    (List.rdropWhile_prefix wsChar (s.dropWhile wsChar)).length_le
  have h3 : (jsTrim s).length = s.length := by rw [h]
  have hdrop : s.dropWhile wsChar = s :=
    (List.dropWhile_suffix wsChar).eq_of_length (by omega)
  constructor
  · exact hdrop
  · have : jsTrim s = s.rdropWhile wsChar := by rw [jsTrim, hdrop]
    rw [← this, h]

theorem jsTrim_eq_self_of_parts {s : Str} (h1 : s.dropWhile wsChar = s)
    (h2 : s.rdropWhile wsChar = s) : jsTrim s = s := by
  rw [jsTrim, h1, h2]

theorem dropWhile_cons_neg {p : Char → Bool} {c : Char} (r : Str) (h : p c = false) :
    (c :: r).dropWhile p = c :: r := by
  rw [List.dropWhile_cons, h]
  simp

theorem rdropWhile_append_stable {p : Char → Bool} (a : Str) {b : Str} (hb : b ≠ [])
    (hstable : b.rdropWhile p = b) : (a ++ b).rdropWhile p = a ++ b := by
  have hb' : b.reverse.dropWhile p = b.reverse := by
    have hr := congrArg List.reverse hstable
    rwa [List.rdropWhile, List.reverse_reverse] at hr
  obtain ⟨c, br, hbr⟩ := List.exists_cons_of_ne_nil (by simpa using hb :
    b.reverse ≠ ([] : Str))
  have hc : p c = false := by
    rw [hbr] at hb'
    exact dropWhile_eq_self_head p c br hb'
  show ((a ++ b).reverse.dropWhile p).reverse = a ++ b
  rw [List.reverse_append, hbr, List.cons_append, List.dropWhile_cons, hc]
  simp only [Bool.false_eq_true, if_false]
  rw [← List.cons_append, ← hbr, ← List.reverse_append]
  exact List.reverse_reverse _

/-- A string of non-whitespace characters is trim-stable. -/
theorem jsTrim_of_no_ws {t : Str} (h : ∀ c ∈ t, wsChar c = false) : jsTrim t = t := by
  apply jsTrim_eq_self_of_parts
  · cases t with
    | nil => rfl
    | cons c r => exact dropWhile_cons_neg r (h c (by simp))
  · apply List.rdropWhile_eq_self_iff.mpr
    intro hl
    rw [h (t.getLast hl) (List.getLast_mem hl)]
    simp

/-- The trim of a string that starts with one space and continues with a
trim-stable string. -/
theorem jsTrim_space_cons {b : Str} (h : jsTrim b = b) : jsTrim (' ' :: b) = b := by
  obtain ⟨h1, h2⟩ := trimStable_parts h
  rw [jsTrim, List.dropWhile_cons]
  simp only [show wsChar ' ' = true from rfl, if_true]
  rw [h1, h2]

/-- The trim of a serialized line `head ++ body` whose head starts with a
non-whitespace character and whose body is trim-stable and nonempty. -/
theorem jsTrim_wrapped (c : Char) (hc : wsChar c = false) (a : Str) {b : Str} (hb : b ≠ [])
    (h : jsTrim b = b) : jsTrim (c :: a ++ b) = c :: a ++ b := by
  apply jsTrim_eq_self_of_parts
  · exact dropWhile_cons_neg _ hc
  · exact rdropWhile_append_stable _ hb (trimStable_parts h).2

-- ----- splitLines over appends -----

theorem splitLines_no_nl {a : Str} (h : '\n' ∉ a) : splitLines a = [a] := by
  induction a with
  | nil => rfl
  | cons c r ih =>
    have hc : ¬c = '\n' := fun he => h (by simp [he])
    have hr : '\n' ∉ r := fun he => h (by simp [he])
    rw [splitLines, if_neg hc, ih hr]

theorem splitLines_append_nl {a : Str} (b : Str) (h : '\n' ∉ a) :
    splitLines (a ++ '\n' :: b) = a :: splitLines b := by
  induction a with
  | nil =>
    show splitLines ('\n' :: b) = [] :: splitLines b
    rw [splitLines, if_pos rfl]
  | cons c r ih =>
    have hc : ¬c = '\n' := fun he => h (by simp [he])
    have hr : '\n' ∉ r := fun he => h (by simp [he])
    show splitLines (c :: (r ++ '\n' :: b)) = (c :: r) :: splitLines b
    rw [splitLines, if_neg hc, ih hr]

/-- A fixpoint of `normalizeDescription` is trim-stable. -/
theorem normalize_fix_trimStable {d : Str} (h : normalizeDescription d = d) : jsTrim d = d := by
  rw [normalizeDescription_eq] at h
  by_cases hb : jsTrim d = []
  · rw [if_pos hb] at h
    rw [← h]
    rfl
  · rw [if_neg hb] at h
    apply jsTrim_eq_of_length
    have l1 : (jsTrim d).length ≤ d.length := (jsTrim_within d).length_le
    have l2 : ((jsTrim d).rdropWhile punctChar).length ≤ (jsTrim d).length :=
      (List.rdropWhile_prefix punctChar (jsTrim d)).length_le
    have l3 : d.length = ((jsTrim d).rdropWhile punctChar).length := by
      conv_lhs => rw [← h]
      rw [jsToLower, List.length_map]
    omega

-- ----- parseTags on a serialized tags line -----

theorem mem_joinSep {c : Char} {sep : Str} : ∀ {ts : List Str},
    c ∈ joinSep sep ts → c ∈ sep ∨ ∃ t ∈ ts, c ∈ t := by
  intro ts
  induction ts with
  | nil =>
    intro h
    cases h
  | cons t rest ih =>
    intro h
    cases rest with
    | nil =>
      right
      exact ⟨t, by simp, h⟩
    | cons t2 r2 =>
      rw [show joinSep sep (t :: t2 :: r2) = t ++ sep ++ joinSep sep (t2 :: r2) from rfl] at h
      rcases List.mem_append.mp h with h1 | h2
      · rcases List.mem_append.mp h1 with ha | hb
        · exact Or.inr ⟨t, by simp, ha⟩
        · exact Or.inl hb
      · rcases ih h2 with ha | ⟨u, hu, hcu⟩
        · exact Or.inl ha
        · exact Or.inr ⟨u, by simp [hu], hcu⟩

/-- A well-formed tag: nonempty, no brackets, no commas, no whitespace. -/
def WFTag (t : Str) : Prop :=
  t ≠ [] ∧ ∀ c ∈ t, (c == '[') = false ∧ (c == ']') = false ∧ tagSep c = false

theorem splitRuns_join_tags : ∀ (ts : List Str), ts ≠ [] → (∀ t ∈ ts, WFTag t) →
    splitRuns tagSep (joinSep (str ", ") ts) = ts := by
  intro ts
  induction ts with
  | nil =>
    intro h
    exact absurd rfl h
  | cons t rest ih =>
    intro _ hwf
    obtain ⟨htne, htchars⟩ := hwf t (by simp)
    have hnot : ∀ c ∈ t, (fun c => !tagSep c) c = true := by
      intro c hc
      show (!tagSep c) = true
      rw [(htchars c hc).2.2]
      rfl
    cases rest with
    | nil =>
      show splitRuns tagSep t = [t]
      rw [splitRuns_eq, List.dropWhile_eq_nil_iff.mpr hnot, List.takeWhile_eq_self_iff.mpr hnot]
    | cons t2 r2 =>
      obtain ⟨ht2ne, ht2chars⟩ := hwf t2 (by simp)
      obtain ⟨c2, t2r, ht2⟩ := List.exists_cons_of_ne_nil ht2ne
      have hc2 : tagSep c2 = false := (ht2chars c2 (by rw [ht2]; simp)).2.2
      have hjoin : joinSep (str ", ") (t :: t2 :: r2)
          = t ++ ',' :: ' ' :: joinSep (str ", ") (t2 :: r2) := by
        rw [show joinSep (str ", ") (t :: t2 :: r2)
            = t ++ str ", " ++ joinSep (str ", ") (t2 :: r2) from rfl, List.append_assoc]
        rfl
      have hJcons : ∃ z : Str, joinSep (str ", ") (t2 :: r2) = c2 :: z := by
        cases r2 with
        | nil => exact ⟨t2r, by rw [show joinSep (str ", ") [t2] = t2 from rfl, ht2]⟩
        | cons t3 r3 =>
          refine ⟨t2r ++ str ", " ++ joinSep (str ", ") (t3 :: r3), ?_⟩
          rw [show joinSep (str ", ") (t2 :: t3 :: r3)
              = t2 ++ str ", " ++ joinSep (str ", ") (t3 :: r3) from rfl, ht2]
          simp
      obtain ⟨z, hz⟩ := hJcons
      rw [hjoin, splitRuns_eq, takeWhile_append_all hnot, dropWhile_append_all hnot]
      rw [List.takeWhile_cons, List.dropWhile_cons]
      simp only [show (fun c => !tagSep c) ',' = false from rfl, Bool.false_eq_true, if_false,
        List.append_nil]
      have hdropsp : (' ' :: joinSep (str ", ") (t2 :: r2)).dropWhile tagSep
          = joinSep (str ", ") (t2 :: r2) := by
        rw [List.dropWhile_cons]
        simp only [show tagSep ' ' = true from rfl, if_true]
        rw [hz]
        exact dropWhile_cons_neg z hc2
      rw [hdropsp, ih (by simp) (fun u hu => hwf u (by simp [hu]))]

/-- `parseTags` recovers exactly the tag list it was serialized from. -/
theorem parseTags_join (ts : List Str) (hwf : ∀ t ∈ ts, WFTag t) :
    parseTags (joinSep (str ", ") ts) = ts := by
  cases ts with
  | nil => rfl
  | cons t rest =>
    have hnb : (joinSep (str ", ") (t :: rest)).filter (fun c => !(c == '[' || c == ']'))
        = joinSep (str ", ") (t :: rest) := by
      apply List.filter_eq_self.mpr
      intro c hc
      rcases mem_joinSep hc with hsep | ⟨u, hu, hcu⟩
      · rw [show str ", " = [',', ' '] from rfl] at hsep
        have hcs : c = ',' ∨ c = ' ' := by simpa using hsep
        rcases hcs with rfl | rfl <;> rfl
      · obtain ⟨-, hch⟩ := hwf u hu
        rw [(hch c hcu).1, (hch c hcu).2.1]
        rfl
    unfold parseTags
    rw [hnb, splitRuns_join_tags (t :: rest) (by simp) hwf]
    have hws : ∀ u ∈ t :: rest, ∀ c ∈ u, wsChar c = false := by
      intro u hu c hc
      have hsep := ((hwf u hu).2 c hc).2.2
      unfold tagSep at hsep
      exact (Bool.or_eq_false_iff.mp hsep).2
    have htrim : (t :: rest).map jsTrim = t :: rest := by
      have hid : ∀ u ∈ t :: rest, jsTrim u = id u := by
        intro u hu
        exact jsTrim_of_no_ws (hws u hu)
      rw [List.map_congr_left hid, List.map_id]
    rw [htrim]
    apply List.filter_eq_self.mpr
    intro u hu
    simp only [decide_eq_true_eq]
    exact (hwf u hu).1

-- ----- Round trip for the moves file (claim C2) -----

/-- Move records the serialize/parse round trip is proved for: names
trim-stable and single-line, descriptions already normalized (fixpoints of
`normalizeDescription`), single-line and not starting with `#` or `@`,
well-formed tags whose serialized line does not start with `#` or `@`, and
single-line ids free of trailing whitespace. -/
def WFMove (m : Move) : Prop :=
  m.name ≠ [] ∧ jsTrim m.name = m.name ∧ '\n' ∉ m.name ∧
  normalizeDescription m.description = m.description ∧ '\n' ∉ m.description ∧
  startsWithChar '#' m.description = false ∧ startsWithChar '@' m.description = false ∧
  (∀ t ∈ m.tags, WFTag t) ∧
  startsWithChar '#' (joinSep (str ", ") m.tags) = false ∧
  startsWithChar '@' (joinSep (str ", ") m.tags) = false ∧
  '\n' ∉ m.id ∧ m.id.rdropWhile wsChar = m.id

theorem nl_not_mem_joinSep_tags {ts : List Str} (hwf : ∀ t ∈ ts, WFTag t) :
    '\n' ∉ joinSep (str ", ") ts := by
  intro hmem
  rcases mem_joinSep hmem with hsep | ⟨u, hu, hcu⟩
  · rw [show str ", " = [',', ' '] from rfl] at hsep
    simp at hsep
  · have := ((hwf u hu).2 '\n' hcu).2.2
    simp [tagSep, wsChar] at this

theorem joinSep_tags_rstable : ∀ (ts : List Str), ts ≠ [] → (∀ t ∈ ts, WFTag t) →
    (joinSep (str ", ") ts).rdropWhile wsChar = joinSep (str ", ") ts ∧
      joinSep (str ", ") ts ≠ [] := by
  intro ts
  induction ts with
  | nil =>
    intro h
    exact absurd rfl h
  | cons t rest ih =>
    intro _ hwf
    obtain ⟨htne, htchars⟩ := hwf t (by simp)
    have hws : ∀ c ∈ t, wsChar c = false := by
      intro c hc
      have := (htchars c hc).2.2
      unfold tagSep at this
      exact (Bool.or_eq_false_iff.mp this).2
    cases rest with
    | nil =>
      constructor
      · exact (trimStable_parts (jsTrim_of_no_ws hws)).2
      · exact htne
    | cons t2 r2 =>
      obtain ⟨hst, hne⟩ := ih (by simp) (fun u hu => hwf u (by simp [hu]))
      have hjoin : joinSep (str ", ") (t :: t2 :: r2)
          = (t ++ str ", ") ++ joinSep (str ", ") (t2 :: r2) := by
        rw [show joinSep (str ", ") (t :: t2 :: r2)
            = t ++ str ", " ++ joinSep (str ", ") (t2 :: r2) from rfl]
      constructor
      · rw [hjoin]
        exact rdropWhile_append_stable _ hne hst
      · rw [hjoin]
        simp [hne]

/-- A serialized tags line is trim-stable. -/
theorem joinSep_tags_trimStable {ts : List Str} (hwf : ∀ t ∈ ts, WFTag t) :
    jsTrim (joinSep (str ", ") ts) = joinSep (str ", ") ts := by
  cases ts with
  | nil => rfl
  | cons t rest =>
    obtain ⟨htne, htchars⟩ := hwf t (by simp)
    obtain ⟨c, tr, htc⟩ := List.exists_cons_of_ne_nil htne
    have hcs : wsChar c = false := by
      have := (htchars c (by rw [htc]; simp)).2.2
      unfold tagSep at this
      exact (Bool.or_eq_false_iff.mp this).2
    apply jsTrim_eq_self_of_parts
    · have hcons : ∃ z : Str, joinSep (str ", ") (t :: rest) = c :: z := by
        cases rest with
        | nil => exact ⟨tr, by rw [show joinSep (str ", ") [t] = t from rfl, htc]⟩
        | cons t2 r2 =>
          refine ⟨tr ++ str ", " ++ joinSep (str ", ") (t2 :: r2), ?_⟩
          rw [show joinSep (str ", ") (t :: t2 :: r2)
              = t ++ str ", " ++ joinSep (str ", ") (t2 :: r2) from rfl, htc]
          simp
      obtain ⟨z, hz⟩ := hcons
      rw [hz]
      exact dropWhile_cons_neg z hcs
    · exact (joinSep_tags_rstable (t :: rest) (by simp) hwf).1

/-- The trim of a serialized id line. -/
theorem jsTrim_id_line {id : Str} (hid : id.rdropWhile wsChar = id) :
    jsTrim ('@' :: id) = '@' :: id := by
  apply jsTrim_eq_self_of_parts
  · exact dropWhile_cons_neg id (by decide)
  · cases hcase : id with
    | nil =>
      apply List.rdropWhile_eq_self_iff.mpr
      intro hl
      show ¬wsChar '@' = true
      decide
    | cons c r =>
      rw [show ('@' :: c :: r : Str) = ['@'] ++ c :: r from rfl]
      apply rdropWhile_append_stable _ (by simp)
      rw [← hcase, hid]

theorem splitLines_block (l1 l2 l3 l4 tail : Str)
    (h1 : '\n' ∉ l1) (h2 : '\n' ∉ l2) (h3 : '\n' ∉ l3) (h4 : '\n' ∉ l4) :
    splitLines ((l1 ++ '\n' :: (l2 ++ '\n' :: l3)) ++ '\n' :: l4 ++ '\n' :: tail)
      = l1 :: l2 :: l3 :: l4 :: splitLines tail := by
  have hshape : (l1 ++ '\n' :: (l2 ++ '\n' :: l3)) ++ '\n' :: l4 ++ '\n' :: tail
      = l1 ++ '\n' :: (l2 ++ '\n' :: (l3 ++ '\n' :: (l4 ++ '\n' :: tail))) := by
    simp [List.append_assoc]
  rw [hshape, splitLines_append_nl _ h1, splitLines_append_nl _ h2, splitLines_append_nl _ h3,
      splitLines_append_nl _ h4]

theorem jsTrim_nil : jsTrim ([] : Str) = [] := rfl

theorem serializeMoveBlock_eq (m : Move) : serializeMoveBlock m
    = ('#' :: ' ' :: m.name) ++ '\n' :: (m.description ++ '\n' :: joinSep (str ", ") m.tags) := by
  unfold serializeMoveBlock
  simp

theorem parseMovesLoop_block (m : Move) (hwf : WFMove m) (rest : List Str) (n : Nat)
    (acc : List Move) :
    parseMovesLoop (('#' :: ' ' :: m.name) :: m.description :: joinSep (str ", ") m.tags ::
        ('@' :: m.id) :: rest) n none acc
      = parseMovesLoop rest (n + 4) none (acc ++ [m]) := by
  obtain ⟨mid, mname, mdesc, mtags⟩ := m
  obtain ⟨hn1, hn2, hn3, hd1, hd2, hd3, hd4, ht, ht1, ht2, hi1, hi2⟩ := hwf
  simp only at hn1 hn2 hn3 hd1 hd2 hd3 hd4 ht ht1 ht2 hi1 hi2
  have f1 : jsTrim ('#' :: ' ' :: mname) = '#' :: ' ' :: mname :=
    jsTrim_wrapped '#' (by decide) [' '] hn1 hn2
  have f2 : jsTrim (' ' :: mname) = mname := jsTrim_space_cons hn2
  have f3 : jsTrim mdesc = mdesc := normalize_fix_trimStable hd1
  have f4 : jsTrim (joinSep (str ", ") mtags) = joinSep (str ", ") mtags :=
    joinSep_tags_trimStable ht
  have f5 : jsTrim ('@' :: mid) = '@' :: mid := jsTrim_id_line hi2
  have hpt : parseTags (joinSep (str ", ") mtags) = mtags := parseTags_join mtags ht
  have hb1 : (('@' : Char) == '#') = false := by decide
  have hb2 : (('#' : Char) == '#') = true := by decide
  have hb3 : (('@' : Char) == '@') = true := by decide
  have harith : n + 1 + 1 + 1 + 1 = n + 4 := by omega
  simp only [parseMovesLoop, f1, f2, f3, f4, f5, hpt, hd1, hd3, hd4, ht1, ht2,
    startsWithChar_cons, hb1, hb2, hb3, List.cons_ne_nil, false_and, and_false, if_false,
    Bool.false_eq_true, List.drop_one, List.tail_cons, List.nil_append, List.cons_append,
    List.getD, List.getElem?_cons_zero, List.getElem?_cons_succ, Option.getD_some, harith,
    List.append_nil]
  simp [hd1, hpt]

instance (t : Str) : Decidable (WFTag t) := by
  unfold WFTag
  infer_instance

instance (m : Move) : Decidable (WFMove m) := by
  unfold WFMove
  infer_instance

theorem parseMovesLoop_serialize : ∀ (ms : List Move), (∀ m ∈ ms, WFMove m) →
    ∀ (n : Nat) (acc : List Move),
    parseMovesLoop (splitLines (joinSep (str "\n\n") (ms.map (fun m =>
        serializeMoveBlock m ++ '\n' :: '@' :: m.id)) ++ ['\n'])) n none acc
      = .ok (acc ++ ms) := by
  intro ms
  induction ms with
  | nil =>
    intro _ n acc
    show parseMovesLoop (splitLines ([] ++ ['\n'])) n none acc = .ok (acc ++ [])
    rw [show splitLines ([] ++ ['\n']) = [[], []] from rfl]
    simp [parseMovesLoop, jsTrim_nil]
  | cons m rest ih =>
    intro hwf n acc
    have hwm := hwf m (by simp)
    obtain ⟨hn1, hn2, hn3, hd1, hd2, hd3, hd4, ht, ht1, ht2, hi1, hi2⟩ := hwf m (by simp)
    have hnl1 : '\n' ∉ ('#' :: ' ' :: m.name) := by simp [hn3]
    have hnl3 : '\n' ∉ joinSep (str ", ") m.tags := nl_not_mem_joinSep_tags ht
    have hnl4 : '\n' ∉ ('@' :: m.id) := by simp [hi1]
    cases rest with
    | nil =>
      show parseMovesLoop (splitLines
        ((serializeMoveBlock m ++ '\n' :: '@' :: m.id) ++ ['\n'])) n none acc = _
      have hstr : (serializeMoveBlock m ++ '\n' :: '@' :: m.id) ++ ['\n']
          = (('#' :: ' ' :: m.name) ++ '\n' :: (m.description ++ '\n' ::
              joinSep (str ", ") m.tags)) ++ '\n' :: ('@' :: m.id) ++ '\n' :: [] := by
        simp [serializeMoveBlock_eq]
      rw [hstr, splitLines_block _ _ _ _ _ hnl1 hd2 hnl3 hnl4]
      rw [parseMovesLoop_block m hwm (splitLines []) n acc]
      simp [parseMovesLoop, splitLines, jsTrim_nil]
    | cons m2 r2 =>
      show parseMovesLoop (splitLines
        ((serializeMoveBlock m ++ '\n' :: '@' :: m.id) ++ ('\n' :: '\n' :: []) ++
          joinSep (str "\n\n") ((m2 :: r2).map (fun mm =>
            serializeMoveBlock mm ++ '\n' :: '@' :: mm.id)) ++ ['\n'])) n none acc = _
      have hstr : (serializeMoveBlock m ++ '\n' :: '@' :: m.id) ++ ('\n' :: '\n' :: []) ++
          joinSep (str "\n\n") ((m2 :: r2).map (fun mm =>
            serializeMoveBlock mm ++ '\n' :: '@' :: mm.id)) ++ ['\n']
          = (('#' :: ' ' :: m.name) ++ '\n' :: (m.description ++ '\n' ::
              joinSep (str ", ") m.tags)) ++ '\n' :: ('@' :: m.id) ++ '\n' :: ('\n' ::
              (joinSep (str "\n\n") ((m2 :: r2).map (fun mm =>
                serializeMoveBlock mm ++ '\n' :: '@' :: mm.id)) ++ ['\n'])) := by
        simp [serializeMoveBlock_eq]
      rw [hstr, splitLines_block _ _ _ _ _ hnl1 hd2 hnl3 hnl4]
      rw [show splitLines ('\n' :: (joinSep (str "\n\n") ((m2 :: r2).map (fun mm =>
          serializeMoveBlock mm ++ '\n' :: '@' :: mm.id)) ++ ['\n']))
          = [] :: splitLines (joinSep (str "\n\n") ((m2 :: r2).map (fun mm =>
            serializeMoveBlock mm ++ '\n' :: '@' :: mm.id)) ++ ['\n']) from by
        rw [splitLines, if_pos rfl]]
      rw [parseMovesLoop_block m hwm _ n acc]
      rw [show parseMovesLoop ([] :: splitLines (joinSep (str "\n\n") ((m2 :: r2).map
          (fun mm => serializeMoveBlock mm ++ '\n' :: '@' :: mm.id)) ++ ['\n']))
          (n + 4) none (acc ++ [m])
          = parseMovesLoop (splitLines (joinSep (str "\n\n") ((m2 :: r2).map
            (fun mm => serializeMoveBlock mm ++ '\n' :: '@' :: mm.id)) ++ ['\n']))
            (n + 4 + 1) none (acc ++ [m]) from by
        rw [parseMovesLoop]
        simp [jsTrim_nil]]
      rw [ih (fun u hu => hwf u (by simp [hu])) (n + 4 + 1) (acc ++ [m])]
      simp

/-- C2 counterexample: the stated side conditions admit a move whose
normalized description begins with `@` (for example `"@x"`); its serialized
block closes early at that line, so the round trip fails. -/
theorem movesRoundTrip_counterexample :
    normalizeDescription (str "@x") = str "@x" ∧
    parseMovesFile (serializeMovesFile
        [{ id := str "i", name := str "n", description := str "@x", tags := [] }])
      = .error (.idWithoutName 4) ∧
    parseMovesFile (serializeMovesFile
        [{ id := str "i", name := str "n", description := str "@x", tags := [] }])
      ≠ .ok [{ id := str "i", name := str "n", description := str "@x", tags := [] }] :=
  ⟨by decide, by decide, by decide⟩

/-- C2 (amended): `parseMovesFile` inverts `serializeMovesFile` exactly
(same ids, names, descriptions and tags, in order) on every collection of
`WFMove` records: in addition to the stated conditions (non-empty names,
normalized descriptions, bracket/comma/whitespace-free tags, single-line
fields), names must be trim-stable, descriptions and the serialized tag
line must not begin with `#` or `@`, tags must be non-empty, and ids must
carry no trailing whitespace. -/
theorem movesRoundTrip (ms : List Move) (hwf : ∀ m ∈ ms, WFMove m) :
    parseMovesFile (serializeMovesFile ms) = .ok ms := by
  unfold parseMovesFile serializeMovesFile
  exact parseMovesLoop_serialize ms hwf 1 []

theorem movesRoundTrip_witness :
    parseMovesFile (serializeMovesFile
        [{ id := str "id1", name := str "jab", description := str "quick jab",
           tags := [str "punch", str "basic"] },
         { id := str "id2", name := str "cross straight", description := [], tags := [] }])
      = .ok
        [{ id := str "id1", name := str "jab", description := str "quick jab",
           tags := [str "punch", str "basic"] },
         { id := str "id2", name := str "cross straight", description := [], tags := [] }] :=
  movesRoundTrip _ (by decide)

-- ----- Decimal printing round trip (claim C1) -----

/-- Value of a little-endian decimal digit list. -/
def lval : List Nat → Nat
  | [] => 0
  | d :: r => d + 10 * lval r

theorem natDigitsRevAux_lval : ∀ (fuel n : Nat), n ≤ fuel → lval (natDigitsRevAux fuel n) = n := by
  intro fuel
  induction fuel with
  | zero =>
    intro n hn
    interval_cases n
    rfl
  | succ f ih =>
    intro n hn
    cases n with
    | zero => rfl
    | succ m =>
      show lval ((Nat.succ m % 10) :: natDigitsRevAux f (Nat.succ m / 10)) = Nat.succ m
      rw [lval, ih (Nat.succ m / 10) (by omega)]
      omega

theorem natDigitsRevAux_lt : ∀ (fuel n : Nat), ∀ d ∈ natDigitsRevAux fuel n, d < 10 := by
  intro fuel
  induction fuel with
  | zero =>
    intro n d hd
    cases n <;> cases hd
  | succ f ih =>
    intro n d hd
    cases n with
    | zero => cases hd
    | succ m =>
      rcases List.mem_cons.mp hd with h | h
      · rw [h]
        exact Nat.mod_lt _ (by omega)
      · exact ih _ d h

theorem natDigitsPad_lval : ∀ (k m : Nat), m < 10 ^ k → lval (natDigitsPad k m) = m := by
  intro k
  induction k with
  | zero =>
    intro m hm
    rw [pow_zero] at hm
    interval_cases m
    rfl
  | succ j ih =>
    intro m hm
    show lval ((m % 10) :: natDigitsPad j (m / 10)) = m
    rw [lval, ih (m / 10) (by
      rw [pow_succ] at hm
      omega)]
    omega

theorem natDigitsPad_lt : ∀ (k m : Nat), ∀ d ∈ natDigitsPad k m, d < 10 := by
  intro k
  induction k with
  | zero =>
    intro m d hd
    cases hd
  | succ j ih =>
    intro m d hd
    rcases List.mem_cons.mp hd with h | h
    · rw [h]
      exact Nat.mod_lt _ (by omega)
    · exact ih _ d h

theorem natDigitsPad_length : ∀ (k m : Nat), (natDigitsPad k m).length = k := by
  intro k
  induction k with
  | zero => intro m; rfl
  | succ j ih =>
    intro m
    show ((m % 10) :: natDigitsPad j (m / 10)).length = j + 1
    rw [List.length_cons, ih]

theorem digitChar_isDigit {d : Nat} (h : d < 10) : (digitChar d).isDigit = true := by
  interval_cases d <;> decide

theorem digitChar_val {d : Nat} (h : d < 10) : (digitChar d).toNat - 48 = d := by
  interval_cases d <;> decide

theorem digitsVal_append_one (xs : Str) (x : Char) :
    digitsVal (xs ++ [x]) = digitsVal xs * 10 + (x.toNat - 48) := by
  unfold digitsVal
  rw [List.foldl_append]
  rfl

theorem digitsVal_rev_map : ∀ (ds : List Nat), (∀ d ∈ ds, d < 10) →
    digitsVal ((ds.map digitChar).reverse) = lval ds := by
  intro ds
  induction ds with
  | nil =>
    intro _
    rfl
  | cons d r ih =>
    intro h
    rw [List.map_cons, List.reverse_cons, digitsVal_append_one,
      ih (fun x hx => h x (by simp [hx])), digitChar_val (h d (by simp)), lval]
    ring

theorem digitsVal_natToStr (n : Nat) : digitsVal (natToStr n) = n := by
  unfold natToStr
  by_cases h : n = 0
  · rw [if_pos h, h]
    decide
  · rw [if_neg h, digitsVal_rev_map _ (natDigitsRevAux_lt n n), natDigitsRevAux_lval n n le_rfl]

theorem natToStr_digits (n : Nat) : ∀ c ∈ natToStr n, c.isDigit = true := by
  unfold natToStr
  by_cases h : n = 0
  · rw [if_pos h]
    intro c hc
    rw [List.mem_singleton.mp hc]
    decide
  · rw [if_neg h]
    intro c hc
    rw [List.mem_reverse] at hc
    obtain ⟨d, hd, rfl⟩ := List.mem_map.mp hc
    exact digitChar_isDigit (natDigitsRevAux_lt n n d hd)

theorem natToStr_ne_nil (n : Nat) : natToStr n ≠ [] := by
  unfold natToStr
  by_cases h : n = 0
  · rw [if_pos h]
    simp
  · rw [if_neg h]
    obtain ⟨m, rfl⟩ := Nat.exists_eq_succ_of_ne_zero h
    simp [natDigitsRevAux]

theorem padDigits_digits (k m : Nat) : ∀ c ∈ padDigits k m, c.isDigit = true := by
  intro c hc
  unfold padDigits at hc
  rw [List.mem_reverse] at hc
  obtain ⟨d, hd, rfl⟩ := List.mem_map.mp hc
  exact digitChar_isDigit (natDigitsPad_lt k m d hd)

theorem digitsVal_padDigits (k m : Nat) (h : m < 10 ^ k) : digitsVal (padDigits k m) = m := by
  unfold padDigits
  rw [digitsVal_rev_map _ (natDigitsPad_lt k m), natDigitsPad_lval k m h]

theorem padDigits_length (k m : Nat) : (padDigits k m).length = k := by
  unfold padDigits
  rw [List.length_reverse, List.length_map, natDigitsPad_length]

theorem findPow_of_dvd {d : Nat} (h : ∃ j, j ≤ d ∧ d ∣ 10 ^ j) :
    ∃ k, findPow d = some k ∧ d ∣ 10 ^ k := by
  obtain ⟨j, hj, hjd⟩ := h
  have hsome : (findPow d).isSome = true := by
    unfold findPow
    rw [List.find?_isSome]
    exact ⟨j, List.mem_range.mpr (by omega), by
      rw [beq_iff_eq]
      exact Nat.mod_eq_zero_of_dvd hjd⟩
  obtain ⟨k, hk⟩ := Option.isSome_iff_exists.mp hsome
  refine ⟨k, hk, ?_⟩
  have := List.find?_some hk
  rw [beq_iff_eq] at this
  exact Nat.dvd_of_mod_eq_zero this

theorem parseFloatQ_qToStrNNDec (q : ℚ) (hq : 0 ≤ q) (hfin : q.den ∣ 10 ^ q.den) :
    parseFloatQ (qToStrNNDec q) = some q := by
  obtain ⟨k, hk, hdvd⟩ := findPow_of_dvd ⟨q.den, le_rfl, hfin⟩
  have hden : (0 : Nat) < q.den := q.pos
  have hnum : (0 : Int) ≤ q.num := Rat.num_nonneg.mpr hq
  have hNmul : q.num.toNat * 10 ^ k / q.den * q.den = q.num.toNat * 10 ^ k :=
    Nat.div_mul_cancel (Dvd.dvd.mul_left hdvd _)
  have hqden : ((q.den : ℚ)) ≠ 0 := by
    exact_mod_cast hden.ne'
  have hqnum : q * q.den = ((q.num : ℚ)) := by
    nth_rewrite 1 [← Rat.num_div_den q]
    exact div_mul_cancel₀ _ hqden
  have hkey : ((q.num.toNat * 10 ^ k / q.den : Nat) : ℚ) = q * 10 ^ k := by
    have hc : ((q.num.toNat * 10 ^ k / q.den : Nat) : ℚ) * (q.den : ℚ)
        = ((q.num.toNat : Nat) : ℚ) * (10 : ℚ) ^ k := by
      exact_mod_cast hNmul
    have h1 : ((q.num.toNat : Nat) : ℚ) = ((q.num : ℚ)) := by
      exact_mod_cast Int.toNat_of_nonneg hnum
    rw [h1, ← hqnum] at hc
    have hc2 : ((q.num.toNat * 10 ^ k / q.den : Nat) : ℚ) * (q.den : ℚ)
        = (q * 10 ^ k) * (q.den : ℚ) := by
      rw [hc]
      ring
    exact mul_right_cancel₀ hqden hc2
  have hmk : mkRat ((q.num.toNat * 10 ^ k / q.den : Nat) : Int) (10 ^ k) = q := by
    rw [Rat.mkRat_eq_div]
    have hc1 : ((((q.num.toNat * 10 ^ k / q.den : Nat) : Int)) : ℚ)
        = ((q.num.toNat * 10 ^ k / q.den : Nat) : ℚ) := by
      exact_mod_cast rfl
    have hc2 : (((10 ^ k : Nat)) : ℚ) = (10 : ℚ) ^ k := by
      push_cast
      rfl
    rw [hc1, hc2, hkey]
    exact mul_div_cancel_right₀ q (pow_ne_zero k (by norm_num))
  simp only [qToStrNNDec, hk]
  by_cases hk0 : k = 0
  · rw [if_pos hk0]
    rw [parseFloatQ_digits _ (natToStr_ne_nil _) (natToStr_digits _), digitsVal_natToStr]
    subst hk0
    rw [show (1 : Nat) = 10 ^ (0 : Nat) from rfl]
    exact congrArg some hmk
  · rw [if_neg hk0]
    rw [parseFloatQ_decimal _ _ (natToStr_ne_nil _) (natToStr_digits _) (padDigits_digits _ _)]
    rw [padDigits_length, digitsVal_natToStr,
      digitsVal_padDigits _ _ (Nat.mod_lt _ (by positivity))]
    have hNat : q.num.toNat * 10 ^ k / q.den / 10 ^ k * 10 ^ k
        + q.num.toNat * 10 ^ k / q.den % 10 ^ k = q.num.toNat * 10 ^ k / q.den := by
      exact Nat.div_add_mod' _ _
    rw [show ((q.num.toNat * 10 ^ k / q.den / 10 ^ k : Nat) : Int) * 10 ^ k
          + ((q.num.toNat * 10 ^ k / q.den % 10 ^ k : Nat) : Int)
          = ((q.num.toNat * 10 ^ k / q.den : Nat) : Int) from by exact_mod_cast hNat]
    exact congrArg some hmk

theorem qToStrNNDec_chars (q : ℚ) (hfin : q.den ∣ 10 ^ q.den) :
    ∀ c ∈ qToStrNNDec q, c.isDigit = true ∨ c = '.' := by
  obtain ⟨k, hk, _⟩ := findPow_of_dvd ⟨q.den, le_rfl, hfin⟩
  simp only [qToStrNNDec, hk]
  by_cases hk0 : k = 0
  · rw [if_pos hk0]
    intro c hc
    exact Or.inl (natToStr_digits _ c hc)
  · rw [if_neg hk0]
    intro c hc
    rcases List.mem_append.mp hc with h | h
    · exact Or.inl (natToStr_digits _ c h)
    · rcases List.mem_cons.mp h with h | h
      · exact Or.inr h
      · exact Or.inl (padDigits_digits _ _ c h)

theorem qToStrNNDec_head (q : ℚ) (hfin : q.den ∣ 10 ^ q.den) :
    ∃ c rest, qToStrNNDec q = c :: rest ∧ c.isDigit = true := by
  obtain ⟨k, hk, _⟩ := findPow_of_dvd ⟨q.den, le_rfl, hfin⟩
  simp only [qToStrNNDec, hk]
  by_cases hk0 : k = 0
  · rw [if_pos hk0]
    obtain ⟨c, rest, hc⟩ := List.exists_cons_of_ne_nil (natToStr_ne_nil (q.num.toNat * 10 ^ k / q.den))
    exact ⟨c, rest, hc, natToStr_digits _ c (by rw [hc]; simp)⟩
  · rw [if_neg hk0]
    obtain ⟨c, rest, hc⟩ := List.exists_cons_of_ne_nil
      (natToStr_ne_nil (q.num.toNat * 10 ^ k / q.den / 10 ^ k))
    refine ⟨c, rest ++ '.' :: padDigits k (q.num.toNat * 10 ^ k / q.den % 10 ^ k), ?_, ?_⟩
    · rw [hc]
      rfl
    · exact natToStr_digits _ c (by rw [hc]; simp)

theorem qToStrNNDec_char_not_ws (q : ℚ) (hfin : q.den ∣ 10 ^ q.den) :
    ∀ c ∈ qToStrNNDec q, wsChar c = false := by
  intro c hc
  rcases qToStrNNDec_chars q hfin c hc with h | h
  · exact digit_not_ws h
  · rw [h]
    decide

theorem qToStrNNDec_char_not_lineTerm (q : ℚ) (hfin : q.den ∣ 10 ^ q.den) :
    ∀ c ∈ qToStrNNDec q, lineTerm c = false := by
  intro c hc
  rcases qToStrNNDec_chars q hfin c hc with h | h
  · have hb := isDigit_toNat h
    exact lineTerm_eq_false_of_range c (by omega) (by omega)
  · rw [h]
    decide

theorem qToStrNNDec_ne_nil (q : ℚ) (hfin : q.den ∣ 10 ^ q.den) : qToStrNNDec q ≠ [] := by
  obtain ⟨c, rest, hc, _⟩ := qToStrNNDec_head q hfin
  rw [hc]
  simp

theorem matchNum_digits_sp (d : Str) (h1 : d ≠ []) (ha : ∀ c ∈ d, c.isDigit = true) (r : Str) :
    matchNum (d ++ ' ' :: r) = some (d, ' ' :: r) := by
  have htake : (d ++ ' ' :: r).takeWhile Char.isDigit = d := by
    rw [takeWhile_append_all ha, List.takeWhile_cons]
    simp
  have hdrop : (d ++ ' ' :: r).dropWhile Char.isDigit = ' ' :: r := by
    rw [dropWhile_append_all ha, List.dropWhile_cons]
    simp
  unfold matchNum
  rw [htake, hdrop, if_neg h1]
  split
  · rename_i heq
    injection heq with h1 h2
    exact absurd h1 (by decide)
  · rfl

theorem matchNum_decimal_sp (d1 d2 : Str) (h1 : d1 ≠ []) (ha1 : ∀ c ∈ d1, c.isDigit = true)
    (ha2 : ∀ c ∈ d2, c.isDigit = true) (r : Str) :
    matchNum (d1 ++ '.' :: d2 ++ ' ' :: r) = some (d1 ++ '.' :: d2, ' ' :: r) := by
  have htake : (d1 ++ '.' :: (d2 ++ ' ' :: r)).takeWhile Char.isDigit = d1 := by
    rw [takeWhile_append_all ha1, List.takeWhile_cons]
    simp
  have hdrop : (d1 ++ '.' :: (d2 ++ ' ' :: r)).dropWhile Char.isDigit = '.' :: (d2 ++ ' ' :: r) := by
    rw [dropWhile_append_all ha1, List.dropWhile_cons]
    simp
  have htk2 : (d2 ++ ' ' :: r).takeWhile Char.isDigit = d2 := by
    rw [takeWhile_append_all ha2, List.takeWhile_cons]
    simp
  have hdp2 : (d2 ++ ' ' :: r).dropWhile Char.isDigit = ' ' :: r := by
    rw [dropWhile_append_all ha2, List.dropWhile_cons]
    simp
  have hshape : d1 ++ '.' :: d2 ++ ' ' :: r = d1 ++ '.' :: (d2 ++ ' ' :: r) := by
    simp
  rw [hshape]
  unfold matchNum
  rw [htake, hdrop, if_neg h1]
  split
  · rename_i r2 heq
    injection heq with hdot hrest
    rw [← hrest, htk2, hdp2]
  · rename_i hne
    exact absurd rfl (hne (d2 ++ ' ' :: r))

theorem matchNum_qToStrNNDec (q : ℚ) (hfin : q.den ∣ 10 ^ q.den) (r : Str) :
    matchNum (qToStrNNDec q ++ ' ' :: r) = some (qToStrNNDec q, ' ' :: r) := by
  obtain ⟨k, hk, _⟩ := findPow_of_dvd ⟨q.den, le_rfl, hfin⟩
  simp only [qToStrNNDec, hk]
  by_cases hk0 : k = 0
  · rw [if_pos hk0]
    exact matchNum_digits_sp _ (natToStr_ne_nil _) (natToStr_digits _) r
  · rw [if_neg hk0]
    exact matchNum_decimal_sp _ _ (natToStr_ne_nil _) (natToStr_digits _) (padDigits_digits _ _) r

theorem reqWs_sp (r : Str) : reqWs (' ' :: r) = some (r.dropWhile wsChar) := by
  show (if wsChar ' ' = true then some (r.dropWhile wsChar) else none) = some (r.dropWhile wsChar)
  rw [if_pos (by decide)]

theorem dropWhile_cons_not {p : Char → Bool} {c : Char} (r : Str) (h : p c = false) :
    (c :: r).dropWhile p = c :: r := by
  rw [List.dropWhile_cons, h]
  simp

theorem matchStance_serialized (s : Stance) (rest : Str) :
    matchStance (stanceStr s ++ ' ' :: rest) = some (s, ' ' :: rest) := by
  cases s with
  | Right =>
    unfold matchStance stanceStr
    rw [if_pos (List.isPrefixOf_iff_prefix.mpr (List.prefix_append _ _)),
      show (5 : Nat) = (str "Right").length from rfl, List.drop_left]
  | Left =>
    unfold matchStance stanceStr
    rw [show str "Left" ++ ' ' :: rest = 'L' :: (str "eft" ++ ' ' :: rest) from rfl,
      show str "Right" = 'R' :: str "ight" from rfl, List.isPrefixOf_cons₂]
    rw [show ('R' == 'L') = false from by decide]
    simp only [Bool.false_and, Bool.false_eq_true, if_false]
    rw [show 'L' :: (str "eft" ++ ' ' :: rest) = str "Left" ++ ' ' :: rest from rfl,
      if_pos (List.isPrefixOf_iff_prefix.mpr (List.prefix_append _ _)),
      show (4 : Nat) = (str "Left").length from rfl, List.drop_left]
  | Centered =>
    unfold matchStance stanceStr
    rw [show str "Centered" ++ ' ' :: rest = 'C' :: (str "entered" ++ ' ' :: rest) from rfl,
      show str "Right" = 'R' :: str "ight" from rfl, List.isPrefixOf_cons₂,
      show ('R' == 'C') = false from by decide]
    simp only [Bool.false_and, Bool.false_eq_true, if_false]
    rw [show str "Left" = 'L' :: str "eft" from rfl, List.isPrefixOf_cons₂,
      show ('L' == 'C') = false from by decide]
    simp only [Bool.false_and, Bool.false_eq_true, if_false]
    rw [show 'C' :: (str "entered" ++ ' ' :: rest) = str "Centered" ++ ' ' :: rest from rfl,
      if_pos (List.isPrefixOf_iff_prefix.mpr (List.prefix_append _ _)),
      show (8 : Nat) = (str "Centered").length from rfl, List.drop_left]

theorem checkEnd_sp_at (id : Str) (hid1 : id ≠ []) (hid2 : ∀ c ∈ id, wsChar c = false) :
    checkEnd (' ' :: '@' :: id) = some id := by
  have hdw : (' ' :: '@' :: id).dropWhile wsChar = '@' :: id := by
    rw [List.dropWhile_cons, if_pos (show wsChar ' ' = true from rfl)]
    exact dropWhile_cons_neg id (by decide)
  unfold checkEnd
  rw [hdw]
  split
  · rename_i idc heq
    injection heq with _ hidc
    rw [if_pos]
    · rw [hidc]
    · refine ⟨?_, ?_, ?_⟩
      · rw [List.takeWhile_cons]
        simp [show wsChar ' ' = true from by decide]
      · rw [← hidc]
        exact hid1
      · rw [← hidc]
        exact List.all_eq_true.mpr (fun c hc => by
          rw [hid2 c hc]
          rfl)
  · rename_i hne
    exact absurd rfl (hne id)

theorem checkEnd_mid (n2 : Str) (_hne : n2 ≠ []) (hnw : ∃ c ∈ n2, wsChar c = false) (id : Str) :
    checkEnd (n2 ++ ' ' :: '@' :: id) = none := by
  have hdn : n2.dropWhile wsChar ≠ [] := by
    intro h
    obtain ⟨c, hc, hcw⟩ := hnw
    have := List.dropWhile_eq_nil_iff.mp h c hc
    rw [hcw] at this
    exact absurd this (by decide)
  obtain ⟨c, rest2, hcr⟩ := List.exists_cons_of_ne_nil hdn
  have hcw : wsChar c = false := by
    have hidem := List.dropWhile_idempotent wsChar n2
    rw [hcr, List.dropWhile_cons] at hidem
    by_cases h : wsChar c = true
    · rw [if_pos h] at hidem
      have hlen := congrArg List.length hidem
      have hle : (rest2.dropWhile wsChar).length ≤ rest2.length :=
        (List.dropWhile_suffix wsChar).length_le
      simp at hlen
      omega
    · simpa using h
  have hdw : (n2 ++ ' ' :: '@' :: id).dropWhile wsChar = c :: (rest2 ++ ' ' :: '@' :: id) := by
    rw [List.dropWhile_append]
    rw [show (n2.dropWhile wsChar).isEmpty = false from by
      rw [hcr]
      rfl]
    simp only [Bool.false_eq_true, if_false]
    rw [hcr]
    rfl
  unfold checkEnd
  rw [hdw]
  split
  · rename_i idc heq
    injection heq with hch hidc
    rw [if_neg]
    intro hcond
    obtain ⟨_, _, hall⟩ := hcond
    have := List.all_eq_true.mp hall ' ' (by
      rw [← hidc]
      exact List.mem_append.mpr (Or.inr (by simp)))
    rw [show wsChar ' ' = true from rfl] at this
    simp at this
  · rfl

theorem last_not_ws_of_trimStable {s : Str} (h : jsTrim s = s) (hs : s ≠ []) :
    wsChar (s.getLast hs) = false := by
  have h2 := (trimStable_parts h).2
  have := List.rdropWhile_eq_self_iff.mp h2 hs
  simpa using this

theorem tailGo_run (id : Str) (hid1 : id ≠ []) (hid2 : ∀ c ∈ id, wsChar c = false) :
    ∀ (n2 acc : Str),
      (∀ s, s ≠ [] → s <:+ n2 → ∃ c ∈ s, wsChar c = false) →
      (∀ c ∈ n2, lineTerm c = false) →
      tailGo acc (n2 ++ ' ' :: '@' :: id) = some (acc.reverse ++ n2, id) := by
  intro n2
  induction n2 with
  | nil =>
    intro acc _ _
    rw [List.nil_append]
    simp only [tailGo]
    rw [checkEnd_sp_at id hid1 hid2]
    simp
  | cons c n2r ih =>
    intro acc hsuf hlt
    have hchk : checkEnd ((c :: n2r) ++ ' ' :: '@' :: id) = none :=
      checkEnd_mid _ (by simp) (hsuf _ (by simp) List.suffix_rfl) id
    rw [show (c :: n2r) ++ ' ' :: '@' :: id = c :: (n2r ++ ' ' :: '@' :: id) from rfl] at hchk ⊢
    simp only [tailGo]
    rw [hchk]
    simp only [Option.isSome_none, Bool.false_eq_true, if_false]
    rw [if_neg (by
      rw [hlt c (by simp)]
      simp)]
    rw [ih (c :: acc) (fun s hs hsuf2 => hsuf s hs (hsuf2.trans (List.suffix_cons c n2r)))
      (fun d hd => hlt d (by simp [hd]))]
    rw [List.reverse_cons, List.append_assoc]
    rfl

theorem tailMatch_serialized (name id : Str) (hn1 : name ≠ []) (hn2 : jsTrim name = name)
    (hlt : ∀ c ∈ name, lineTerm c = false) (hid1 : id ≠ []) (hid2 : ∀ c ∈ id, wsChar c = false) :
    tailMatch (name ++ ' ' :: '@' :: id) = some (name, id) := by
  obtain ⟨c0, nrest, rfl⟩ := List.exists_cons_of_ne_nil hn1
  rw [show (c0 :: nrest) ++ ' ' :: '@' :: id = c0 :: (nrest ++ ' ' :: '@' :: id) from rfl]
  show (if lineTerm c0 = true then none
    else tailGo [c0] (nrest ++ ' ' :: '@' :: id)) = some (c0 :: nrest, id)
  rw [if_neg (by
    rw [hlt c0 (by simp)]
    simp)]
  rw [tailGo_run id hid1 hid2 nrest [c0] (fun s hs hsuf => by
    refine ⟨s.getLast hs, List.getLast_mem hs, ?_⟩
    obtain ⟨t, ht⟩ := hsuf
    have h1 : (c0 :: nrest).getLast? = some (s.getLast hs) := by
      rw [← ht, show c0 :: (t ++ s) = (c0 :: t) ++ s from rfl, List.getLast?_append,
        List.getLast?_eq_getLast s hs]
      rfl
    have h2 : (c0 :: nrest).getLast? = some ((c0 :: nrest).getLast (by simp)) :=
      List.getLast?_eq_getLast _ (by simp)
    rw [h1] at h2
    injection h2 with h3
    rw [h3]
    exact last_not_ws_of_trimStable hn2 (by simp))
    (fun d hd => hlt d (by simp [hd]))]
  rfl

theorem goodNum_elim {x : JsNum} (h : goodNum x) :
    ∃ q, x = some q ∧ 0 ≤ q ∧ q.den ∣ 10 ^ q.den ∧ decRange q := by
  cases x with
  | none => exact absurd h (fun h => h)
  | some q => exact ⟨q, rfl, h⟩

theorem natDigitsRevAux_len_bounds : ∀ (fuel n : Nat), n ≤ fuel → n ≠ 0 →
    10 ^ ((natDigitsRevAux fuel n).length - 1) ≤ n
      ∧ n < 10 ^ (natDigitsRevAux fuel n).length := by
  intro fuel
  induction fuel with
  | zero =>
    intro n h1 h2
    omega
  | succ f ih =>
    intro n h1 h2
    obtain ⟨m, rfl⟩ := Nat.exists_eq_succ_of_ne_zero h2
    show 10 ^ (((m + 1) % 10 :: natDigitsRevAux f ((m + 1) / 10)).length - 1) ≤ m + 1
      ∧ m + 1 < 10 ^ ((m + 1) % 10 :: natDigitsRevAux f ((m + 1) / 10)).length
    by_cases hd : (m + 1) / 10 = 0
    · have hz : natDigitsRevAux f ((m + 1) / 10) = [] := by
        rw [hd]
        cases f <;> rfl
      rw [hz]
      simp only [List.length_cons, List.length_nil]
      constructor
      · simp
      · have hm10 : m + 1 < 10 := by omega
        simpa using hm10
    · obtain ⟨hl, hh⟩ := ih ((m + 1) / 10) (by omega) hd
      have hL1 : 1 ≤ (natDigitsRevAux f ((m + 1) / 10)).length := by
        by_contra hc
        rw [show (natDigitsRevAux f ((m + 1) / 10)).length = 0 from by omega, pow_zero] at hh
        omega
      have hp1 : 10 ^ (natDigitsRevAux f ((m + 1) / 10)).length
          = 10 * 10 ^ ((natDigitsRevAux f ((m + 1) / 10)).length - 1) := by
        conv_lhs => rw [show (natDigitsRevAux f ((m + 1) / 10)).length
          = (natDigitsRevAux f ((m + 1) / 10)).length - 1 + 1 from by omega]
        rw [pow_succ']
      have hp2 : 10 ^ ((natDigitsRevAux f ((m + 1) / 10)).length + 1)
          = 10 * 10 ^ (natDigitsRevAux f ((m + 1) / 10)).length := pow_succ' 10 _
      simp only [List.length_cons, Nat.add_sub_cancel]
      omega

theorem natToStr_len_bounds (N : Nat) (h : N ≠ 0) :
    10 ^ ((natToStr N).length - 1) ≤ N ∧ N < 10 ^ (natToStr N).length := by
  unfold natToStr
  rw [if_neg h, List.length_reverse, List.length_map]
  exact natDigitsRevAux_len_bounds N N le_rfl h

theorem qToStrNN_eq_dec {q : ℚ} (h1 : 0 ≤ q) (h2 : q.den ∣ 10 ^ q.den) (h3 : decRange q) :
    qToStrNN q = qToStrNNDec q := by
  obtain ⟨k, hk, hdvd⟩ := findPow_of_dvd ⟨q.den, le_rfl, h2⟩
  have hcond : ¬(q.num.toNat * 10 ^ k / q.den ≠ 0
      ∧ (21 < ((natToStr (q.num.toNat * 10 ^ k / q.den)).length : Int) - (k : Int)
         ∨ ((natToStr (q.num.toNat * 10 ^ k / q.den)).length : Int) - (k : Int) ≤ -6)) := by
    rcases h3 with h0 | ⟨hlow, hhigh⟩
    · intro hc
      apply hc.1
      have hnum0 : q.num = 0 := Rat.num_eq_zero.mpr h0
      simp [hnum0]
    · intro hc
      obtain ⟨hN0, hor⟩ := hc
      have hden : (0 : Nat) < q.den := q.pos
      have hnum : (0 : Int) ≤ q.num := Rat.num_nonneg.mpr h1
      have hNmul : q.num.toNat * 10 ^ k / q.den * q.den = q.num.toNat * 10 ^ k :=
        Nat.div_mul_cancel (Dvd.dvd.mul_left hdvd _)
      have hqden : ((q.den : ℚ)) ≠ 0 := by
        exact_mod_cast hden.ne'
      have hqnum : q * q.den = ((q.num : ℚ)) := by
        nth_rewrite 1 [← Rat.num_div_den q]
        exact div_mul_cancel₀ _ hqden
      have hkey : ((q.num.toNat * 10 ^ k / q.den : Nat) : ℚ) = q * 10 ^ k := by
        have hc2 : ((q.num.toNat * 10 ^ k / q.den : Nat) : ℚ) * (q.den : ℚ)
            = ((q.num.toNat : Nat) : ℚ) * (10 : ℚ) ^ k := by
          exact_mod_cast hNmul
        have hc1 : ((q.num.toNat : Nat) : ℚ) = ((q.num : ℚ)) := by
          exact_mod_cast Int.toNat_of_nonneg hnum
        rw [hc1, ← hqnum] at hc2
        have hc3 : ((q.num.toNat * 10 ^ k / q.den : Nat) : ℚ) * (q.den : ℚ)
            = (q * 10 ^ k) * (q.den : ℚ) := by
          rw [hc2]
          ring
        exact mul_right_cancel₀ hqden hc3
      obtain ⟨hdl, hdh⟩ := natToStr_len_bounds (q.num.toNat * 10 ^ k / q.den) hN0
      have hhigh' : q < ((10 ^ 21 : Nat) : ℚ) := by
        have heq : (mkRat 1000000000000000000000 1 : ℚ) = ((10 ^ 21 : Nat) : ℚ) := by
          rw [Rat.mkRat_eq_div]
          norm_num
        rw [← heq]
        exact hhigh
      have hNup : q.num.toNat * 10 ^ k / q.den < 10 ^ (21 + k) := by
        have hq10 : ((q.num.toNat * 10 ^ k / q.den : Nat) : ℚ) < ((10 ^ (21 + k) : Nat) : ℚ) := by
          rw [hkey]
          push_cast
          calc q * 10 ^ k < 10 ^ 21 * 10 ^ k := by
                apply mul_lt_mul_of_pos_right ?_ (by positivity)
                exact_mod_cast hhigh'
            _ = 10 ^ (21 + k) := by rw [pow_add]
        exact_mod_cast hq10
      have hlow' : (1 : ℚ) ≤ q * 10 ^ 6 := by
        rw [Rat.mkRat_eq_div] at hlow
        have h6 : ((1000000 : Nat) : ℚ) = (10 : ℚ) ^ 6 := by norm_num
        rw [div_le_iff₀ (by norm_num)] at hlow
        calc (1 : ℚ) ≤ q * 1000000 := by exact_mod_cast hlow
          _ = q * 10 ^ 6 := by norm_num
      have hNlow : 10 ^ k ≤ 10 ^ 6 * (q.num.toNat * 10 ^ k / q.den) := by
        have hq10 : ((10 ^ k : Nat) : ℚ)
            ≤ ((10 ^ 6 * (q.num.toNat * 10 ^ k / q.den) : Nat) : ℚ) := by
          push_cast
          calc (10 : ℚ) ^ k = 10 ^ k * 1 := by ring
            _ ≤ 10 ^ k * (q * 10 ^ 6) := by
                apply mul_le_mul_of_nonneg_left hlow' (by positivity)
            _ = (q * 10 ^ k) * 10 ^ 6 := by ring
            _ = ((q.num.toNat * 10 ^ k / q.den : Nat) : ℚ) * 10 ^ 6 := by rw [hkey]
            _ = 10 ^ 6 * ((q.num.toNat * 10 ^ k / q.den : Nat) : ℚ) := by ring
        exact_mod_cast hq10
      have hcomp1 : (natToStr (q.num.toNat * 10 ^ k / q.den)).length - 1 < 21 + k :=
        (Nat.pow_lt_pow_iff_right (by omega)).mp (lt_of_le_of_lt hdl hNup)
      have hcomp2 : k < 6 + (natToStr (q.num.toNat * 10 ^ k / q.den)).length := by
        have h6 : 10 ^ k < 10 ^ (6 + (natToStr (q.num.toNat * 10 ^ k / q.den)).length) := by
          calc 10 ^ k ≤ 10 ^ 6 * (q.num.toNat * 10 ^ k / q.den) := hNlow
            _ < 10 ^ 6 * 10 ^ (natToStr (q.num.toNat * 10 ^ k / q.den)).length := by
                exact mul_lt_mul_of_pos_left hdh (by positivity)
            _ = 10 ^ (6 + (natToStr (q.num.toNat * 10 ^ k / q.den)).length) := by
                rw [pow_add]
        exact (Nat.pow_lt_pow_iff_right (by omega)).mp h6
      have hlen1 : 1 ≤ (natToStr (q.num.toNat * 10 ^ k / q.den)).length := by
        by_contra hc
        rw [show (natToStr (q.num.toNat * 10 ^ k / q.den)).length = 0 from by omega,
          pow_zero] at hdh
        omega
      rcases hor with hlt | hle
      · omega
      · omega
  simp only [qToStrNN, hk]
  rw [if_neg hcond]

theorem jsNumToStr_goodNum {q : ℚ} (h1 : 0 ≤ q) (h2 : q.den ∣ 10 ^ q.den) (h3 : decRange q) :
    jsNumToStr (some q) = qToStrNNDec q := by
  simp only [jsNumToStr, qToStr]
  rw [if_neg (not_lt.mpr h1), qToStrNN_eq_dec h1 h2 h3]

theorem dropWhile_stable_head {p : Char → Bool} {c : Char} {r : Str}
    (h : (c :: r).dropWhile p = c :: r) : p c = false := by
  by_cases hc : p c = true
  · rw [List.dropWhile_cons, if_pos hc] at h
    have hlen := congrArg List.length h
    have hle : (r.dropWhile p).length ≤ r.length := (List.dropWhile_suffix p).length_le
    simp at hlen
    omega
  · simpa using hc

theorem partLineOf_shape (p : SongPart) : partLineOf p
    = jsNumToStr p.startTime ++ ' ' :: (jsNumToStr p.endTime ++ ' ' :: (stanceStr p.stance
      ++ ' ' :: (p.name ++ ' ' :: '@' :: p.id))) := by
  unfold partLineOf
  simp [List.append_assoc]

theorem stance_drop_stable (s : Stance) (r : Str) :
    (stanceStr s ++ r).dropWhile wsChar = stanceStr s ++ r := by
  cases s with
  | Right => exact dropWhile_cons_neg _ (by decide)
  | Left => exact dropWhile_cons_neg _ (by decide)
  | Centered => exact dropWhile_cons_neg _ (by decide)

theorem matchPartLine_serialized (p : SongPart) (hWF : WFPart p) :
    ∃ r, matchPartLine (partLineOf p) = some r ∧ partOfRaw r = p := by
  obtain ⟨hn1, hn2, hn3, hi1, hi2, hgs, hge⟩ := hWF
  obtain ⟨qs, hqs, hqs0, hqsf, hqsr⟩ := goodNum_elim hgs
  obtain ⟨qe, hqe, hqe0, hqef, hqer⟩ := goodNum_elim hge
  have hline : partLineOf p
      = qToStrNNDec qs ++ ' ' :: (qToStrNNDec qe ++ ' ' :: (stanceStr p.stance
        ++ ' ' :: (p.name ++ ' ' :: '@' :: p.id))) := by
    rw [partLineOf_shape, hqs, hqe, jsNumToStr_goodNum hqs0 hqsf hqsr, jsNumToStr_goodNum hqe0 hqef hqer]
  have hm1 : matchNum (partLineOf p) = some (qToStrNNDec qs,
      ' ' :: (qToStrNNDec qe ++ ' ' :: (stanceStr p.stance
        ++ ' ' :: (p.name ++ ' ' :: '@' :: p.id)))) := by
    rw [hline]
    exact matchNum_qToStrNNDec qs hqsf _
  have hr1 : (qToStrNNDec qe ++ ' ' :: (stanceStr p.stance
      ++ ' ' :: (p.name ++ ' ' :: '@' :: p.id))).dropWhile wsChar
      = qToStrNNDec qe ++ ' ' :: (stanceStr p.stance ++ ' ' :: (p.name ++ ' ' :: '@' :: p.id)) := by
    obtain ⟨c, rest, hc, hcd⟩ := qToStrNNDec_head qe hqef
    rw [hc, List.cons_append]
    exact dropWhile_cons_neg _ (digit_not_ws hcd)
  have hm2 : matchNum (qToStrNNDec qe ++ ' ' :: (stanceStr p.stance
      ++ ' ' :: (p.name ++ ' ' :: '@' :: p.id)))
      = some (qToStrNNDec qe, ' ' :: (stanceStr p.stance
        ++ ' ' :: (p.name ++ ' ' :: '@' :: p.id))) :=
    matchNum_qToStrNNDec qe hqef _
  have hr2 : (p.name ++ ' ' :: '@' :: p.id).dropWhile wsChar = p.name ++ ' ' :: '@' :: p.id := by
    obtain ⟨c0, nr, hc0⟩ := List.exists_cons_of_ne_nil hn1
    rw [hc0, List.cons_append]
    apply dropWhile_cons_neg
    apply dropWhile_stable_head (r := nr)
    rw [← hc0]
    exact (trimStable_parts hn2).1
  have hm4 : tailMatch (p.name ++ ' ' :: '@' :: p.id) = some (p.name, p.id) :=
    tailMatch_serialized p.name p.id hn1 hn2 hn3 hi1 hi2
  refine ⟨(qToStrNNDec qs, qToStrNNDec qe, p.stance, p.name, p.id), ?_, ?_⟩
  · rw [matchPartLine, hm1]
    simp only [Option.some_bind]
    rw [reqWs_sp, hr1]
    simp only [Option.some_bind]
    rw [hm2]
    simp only [Option.some_bind]
    rw [reqWs_sp, stance_drop_stable]
    simp only [Option.some_bind]
    rw [matchStance_serialized]
    simp only [Option.some_bind]
    rw [reqWs_sp, hr2]
    simp only [Option.some_bind]
    rw [hm4]
    rfl
  · obtain ⟨ps, pe, pst, pn, pid⟩ := p
    simp only at hqs hqe
    simp only [partOfRaw, hqs, hqe]
    rw [parseFloatQ_qToStrNNDec qs hqs0 hqsf, parseFloatQ_qToStrNNDec qe hqe0 hqef]

theorem head_ne_cons {a b : Char} {x y : Str} (h : a.toNat ≠ b.toNat) : a :: x ≠ b :: y := by
  intro he
  injection he with h1 _
  rw [h1] at h
  exact h rfl

theorem partLineOf_trimStable (p : SongPart) (hWF : WFPart p) :
    jsTrim (partLineOf p) = partLineOf p := by
  obtain ⟨hn1, hn2, hn3, hi1, hi2, hgs, hge⟩ := hWF
  obtain ⟨qs, hqs, hqs0, hqsf, hqsr⟩ := goodNum_elim hgs
  obtain ⟨qe, hqe, hqe0, hqef, hqer⟩ := goodNum_elim hge
  have hline : partLineOf p
      = qToStrNNDec qs ++ ' ' :: (qToStrNNDec qe ++ ' ' :: (stanceStr p.stance
        ++ ' ' :: (p.name ++ ' ' :: '@' :: p.id))) := by
    rw [partLineOf_shape, hqs, hqe, jsNumToStr_goodNum hqs0 hqsf hqsr, jsNumToStr_goodNum hqe0 hqef hqer]
  apply jsTrim_eq_self_of_parts
  · obtain ⟨c, rest, hc, hcd⟩ := qToStrNNDec_head qs hqsf
    rw [hline, hc, List.cons_append]
    exact dropWhile_cons_neg _ (digit_not_ws hcd)
  · have hshape2 : partLineOf p = (qToStrNNDec qs ++ ' ' :: (qToStrNNDec qe
        ++ ' ' :: (stanceStr p.stance ++ ' ' :: (p.name ++ [' ', '@'])))) ++ p.id := by
      rw [hline]
      simp
    rw [hshape2]
    exact rdropWhile_append_stable _ hi1 (trimStable_parts (jsTrim_of_no_ws hi2)).2

theorem partLineOf_head_digit (p : SongPart) (hWF : WFPart p) :
    ∃ c rest, partLineOf p = c :: rest ∧ c.isDigit = true := by
  obtain ⟨hn1, hn2, hn3, hi1, hi2, hgs, hge⟩ := hWF
  obtain ⟨qs, hqs, hqs0, hqsf, hqsr⟩ := goodNum_elim hgs
  obtain ⟨c, rest, hc, hcd⟩ := qToStrNNDec_head qs hqsf
  refine ⟨c, rest ++ ' ' :: (jsNumToStr p.endTime ++ ' ' :: (stanceStr p.stance
      ++ ' ' :: (p.name ++ ' ' :: '@' :: p.id))), ?_, hcd⟩
  rw [partLineOf_shape, hqs, jsNumToStr_goodNum hqs0 hqsf hqsr, hc, List.cons_append]

theorem songStep_partLine (st : SongState) (hB : st.inBody = true) (hP : st.inParts = true)
    (p : SongPart) (hWF : WFPart p) :
    songStep st (partLineOf p) = { st with parts := st.parts ++ [p] } := by
  obtain ⟨r, hmr, hpr⟩ := matchPartLine_serialized p hWF
  obtain ⟨c, rest, hc, hcd⟩ := partLineOf_head_digit p hWF
  have hcb := isDigit_toNat hcd
  have htrim : jsTrim (partLineOf p) = partLineOf p := partLineOf_trimStable p hWF
  unfold songStep
  rw [htrim]
  rw [if_neg (by
    rw [hc, show str "#BODY" = '#' :: str "BODY" from rfl]
    exact head_ne_cons (by
      have h35 : ('#').toNat = 35 := (by decide)
      omega))]
  rw [if_pos hB]
  rw [if_neg (by
    rw [hc, show str "parts:" = 'p' :: str "arts:" from rfl]
    exact head_ne_cons (by
      have h112 : ('p').toNat = 112 := (by decide)
      omega))]
  rw [if_pos ⟨hP, by
    rw [hc]
    simp⟩]
  rw [hmr]
  simp only [hpr]

theorem songStep_blank_noBody (st : SongState) (hB : st.inBody = false) : songStep st [] = st := by
  unfold songStep
  rw [if_neg (by decide), if_neg (by rw [hB]; simp), if_pos (by decide)]

theorem songStep_blank_inBody (st : SongState) (hB : st.inBody = true) : songStep st [] = st := by
  unfold songStep
  rw [if_neg (by decide), if_pos hB, if_neg (by decide), if_neg (by
    intro hc
    exact absurd jsTrim_nil hc.2)]

theorem songStep_hash_body (st : SongState) :
    songStep st (str "#BODY") = { st with inBody := true } := by
  unfold songStep
  rw [if_pos (by decide)]

theorem songStep_parts_colon (st : SongState) (hB : st.inBody = true) :
    songStep st (str "parts:") = { st with inParts := true } := by
  unfold songStep
  rw [if_neg (by decide), if_pos hB, if_pos (by decide)]

theorem songBody_fold (ps : List SongPart) : ∀ (st : SongState), st.inBody = true →
    st.inParts = true → (∀ p ∈ ps, WFPart p) →
    (ps.map partLineOf).foldl songStep st = { st with parts := st.parts ++ ps } := by
  induction ps with
  | nil =>
    intro st hB hP _
    simp
  | cons p pr ih =>
    intro st hB hP hwf
    rw [List.map_cons, List.foldl_cons, songStep_partLine st hB hP p (hwf p (by simp))]
    rw [ih { st with parts := st.parts ++ [p] } hB hP (fun q hq => hwf q (by simp [hq]))]
    simp

theorem songStep_skip (st : SongState) (hB : st.inBody = false) (l : Str)
    (h1 : jsTrim l ≠ str "#BODY") (h2 : jsTrim l ≠ [])
    (h3 : splitFirstSpace (jsTrim l) = none) : songStep st l = st := by
  unfold songStep
  rw [if_neg h1, if_neg (by rw [hB]; simp), if_neg h2, h3]

theorem songStep_line_name (st : SongState) (hB : st.inBody = false) (v : Str)
    (hv2 : v ≠ []) (hv : jsTrim v = v) :
    songStep st (str "name " ++ v) = { st with name? := some v } := by
  have htr : jsTrim (str "name " ++ v) = str "name " ++ v :=
    jsTrim_wrapped 'n' (by decide) (str "ame ") hv2 hv
  have hne : str "name " ++ v ≠ str "#BODY" := by
    rw [show str "name " ++ v = 'n' :: (str "ame " ++ v) from rfl,
        show str "#BODY" = '#' :: str "BODY" from rfl]
    exact head_ne_cons (by decide)
  have hnil : str "name " ++ v ≠ [] := by
    rw [show str "name " ++ v = 'n' :: (str "ame " ++ v) from rfl]
    simp
  have hsplit : splitFirstSpace (str "name " ++ v) = some (str "name", v) := by
    simp [splitFirstSpace]
    rfl
  unfold songStep
  rw [htr, if_neg hne, if_neg (by rw [hB]; simp), if_neg hnil, hsplit]
  simp only [show jsToLower (str "name") = str "name" from by decide, if_true]
  rw [hv]

theorem songStep_line_artist (st : SongState) (hB : st.inBody = false) (v : Str)
    (hv2 : v ≠ []) (hv : jsTrim v = v) :
    songStep st (str "artist " ++ v) = { st with artist? := some v } := by
  have htr : jsTrim (str "artist " ++ v) = str "artist " ++ v :=
    jsTrim_wrapped 'a' (by decide) (str "rtist ") hv2 hv
  have hne : str "artist " ++ v ≠ str "#BODY" := by
    rw [show str "artist " ++ v = 'a' :: (str "rtist " ++ v) from rfl,
        show str "#BODY" = '#' :: str "BODY" from rfl]
    exact head_ne_cons (by decide)
  have hnil : str "artist " ++ v ≠ [] := by
    rw [show str "artist " ++ v = 'a' :: (str "rtist " ++ v) from rfl]
    simp
  have hsplit : splitFirstSpace (str "artist " ++ v) = some (str "artist", v) := by
    simp [splitFirstSpace]
    rfl
  unfold songStep
  rw [htr, if_neg hne, if_neg (by rw [hB]; simp), if_neg hnil, hsplit]
  simp only [show jsToLower (str "artist") = str "artist" from by decide,
    show (str "artist" = str "name") = False from by decide,
    if_false, if_true]
  rw [hv]

theorem songStep_line_duration (st : SongState) (hB : st.inBody = false) (v : Str)
    (hv2 : v ≠ []) (hv : jsTrim v = v) :
    songStep st (str "duration " ++ v) = { st with duration? := some (parseFloatQ v) } := by
  have htr : jsTrim (str "duration " ++ v) = str "duration " ++ v :=
    jsTrim_wrapped 'd' (by decide) (str "uration ") hv2 hv
  have hne : str "duration " ++ v ≠ str "#BODY" := by
    rw [show str "duration " ++ v = 'd' :: (str "uration " ++ v) from rfl,
        show str "#BODY" = '#' :: str "BODY" from rfl]
    exact head_ne_cons (by decide)
  have hnil : str "duration " ++ v ≠ [] := by
    rw [show str "duration " ++ v = 'd' :: (str "uration " ++ v) from rfl]
    simp
  have hsplit : splitFirstSpace (str "duration " ++ v) = some (str "duration", v) := by
    simp [splitFirstSpace]
    rfl
  unfold songStep
  rw [htr, if_neg hne, if_neg (by rw [hB]; simp), if_neg hnil, hsplit]
  simp only [show jsToLower (str "duration") = str "duration" from by decide,
    show (str "duration" = str "name") = False from by decide,
    show (str "duration" = str "artist") = False from by decide,
    if_false, if_true]
  rw [hv]

theorem songStep_line_bpm (st : SongState) (hB : st.inBody = false) (v : Str)
    (hv2 : v ≠ []) (hv : jsTrim v = v) :
    songStep st (str "bpm " ++ v) = { st with bpm? := some (parseFloatQ v) } := by
  have htr : jsTrim (str "bpm " ++ v) = str "bpm " ++ v :=
    jsTrim_wrapped 'b' (by decide) (str "pm ") hv2 hv
  have hne : str "bpm " ++ v ≠ str "#BODY" := by
    rw [show str "bpm " ++ v = 'b' :: (str "pm " ++ v) from rfl,
        show str "#BODY" = '#' :: str "BODY" from rfl]
    exact head_ne_cons (by decide)
  have hnil : str "bpm " ++ v ≠ [] := by
    rw [show str "bpm " ++ v = 'b' :: (str "pm " ++ v) from rfl]
    simp
  have hsplit : splitFirstSpace (str "bpm " ++ v) = some (str "bpm", v) := by
    simp [splitFirstSpace]
    rfl
  unfold songStep
  rw [htr, if_neg hne, if_neg (by rw [hB]; simp), if_neg hnil, hsplit]
  simp only [show jsToLower (str "bpm") = str "bpm" from by decide,
    show (str "bpm" = str "name") = False from by decide,
    show (str "bpm" = str "artist") = False from by decide,
    show (str "bpm" = str "duration") = False from by decide,
    if_false, if_true]
  rw [hv]

theorem songStep_line_filepath (st : SongState) (hB : st.inBody = false) (v : Str)
    (hv2 : v ≠ []) (hv : jsTrim v = v) :
    songStep st (str "filepath " ++ v) = { st with filepath? := some v } := by
  have htr : jsTrim (str "filepath " ++ v) = str "filepath " ++ v :=
    jsTrim_wrapped 'f' (by decide) (str "ilepath ") hv2 hv
  have hne : str "filepath " ++ v ≠ str "#BODY" := by
    rw [show str "filepath " ++ v = 'f' :: (str "ilepath " ++ v) from rfl,
        show str "#BODY" = '#' :: str "BODY" from rfl]
    exact head_ne_cons (by decide)
  have hnil : str "filepath " ++ v ≠ [] := by
    rw [show str "filepath " ++ v = 'f' :: (str "ilepath " ++ v) from rfl]
    simp
  have hsplit : splitFirstSpace (str "filepath " ++ v) = some (str "filepath", v) := by
    simp [splitFirstSpace]
    rfl
  unfold songStep
  rw [htr, if_neg hne, if_neg (by rw [hB]; simp), if_neg hnil, hsplit]
  simp only [show jsToLower (str "filepath") = str "filepath" from by decide,
    show (str "filepath" = str "name") = False from by decide,
    show (str "filepath" = str "artist") = False from by decide,
    show (str "filepath" = str "duration") = False from by decide,
    show (str "filepath" = str "bpm") = False from by decide,
    if_false, if_true]
  rw [hv]

theorem songStep_line_beats (st : SongState) (hB : st.inBody = false) (v : Str)
    (hv2 : v ≠ []) (hv : jsTrim v = v) :
    songStep st (str "beats " ++ v) = { st with beats? := some (parseBeats v) } := by
  have htr : jsTrim (str "beats " ++ v) = str "beats " ++ v :=
    jsTrim_wrapped 'b' (by decide) (str "eats ") hv2 hv
  have hne : str "beats " ++ v ≠ str "#BODY" := by
    rw [show str "beats " ++ v = 'b' :: (str "eats " ++ v) from rfl,
        show str "#BODY" = '#' :: str "BODY" from rfl]
    exact head_ne_cons (by decide)
  have hnil : str "beats " ++ v ≠ [] := by
    rw [show str "beats " ++ v = 'b' :: (str "eats " ++ v) from rfl]
    simp
  have hsplit : splitFirstSpace (str "beats " ++ v) = some (str "beats", v) := by
    simp [splitFirstSpace]
    rfl
  unfold songStep
  rw [htr, if_neg hne, if_neg (by rw [hB]; simp), if_neg hnil, hsplit]
  simp only [show jsToLower (str "beats") = str "beats" from by decide,
    show (str "beats" = str "name") = False from by decide,
    show (str "beats" = str "artist") = False from by decide,
    show (str "beats" = str "duration") = False from by decide,
    show (str "beats" = str "bpm") = False from by decide,
    show (str "beats" = str "filepath") = False from by decide,
    if_false, if_true]
  rw [hv]

theorem splitRuns_join_ws : ∀ (ts : List Str), ts ≠ [] →
    (∀ t ∈ ts, t ≠ [] ∧ ∀ c ∈ t, wsChar c = false) →
    splitRuns wsChar (joinSep [' '] ts) = ts := by
  intro ts
  induction ts with
  | nil =>
    intro h
    exact absurd rfl h
  | cons t rest ih =>
    intro _ hwf
    obtain ⟨htne, htchars⟩ := hwf t (by simp)
    have hnot : ∀ c ∈ t, (fun c => !wsChar c) c = true := by
      intro c hc
      show (!wsChar c) = true
      rw [htchars c hc]
      rfl
    cases rest with
    | nil =>
      show splitRuns wsChar t = [t]
      rw [splitRuns_eq, List.dropWhile_eq_nil_iff.mpr hnot, List.takeWhile_eq_self_iff.mpr hnot]
    | cons t2 r2 =>
      obtain ⟨ht2ne, ht2chars⟩ := hwf t2 (by simp)
      obtain ⟨c2, t2r, ht2⟩ := List.exists_cons_of_ne_nil ht2ne
      have hc2 : wsChar c2 = false := ht2chars c2 (by rw [ht2]; simp)
      have hjoin : joinSep [' '] (t :: t2 :: r2) = t ++ ' ' :: joinSep [' '] (t2 :: r2) := by
        rw [show joinSep [' '] (t :: t2 :: r2)
            = t ++ [' '] ++ joinSep [' '] (t2 :: r2) from rfl, List.append_assoc]
        rfl
      have hJcons : ∃ z : Str, joinSep [' '] (t2 :: r2) = c2 :: z := by
        cases r2 with
        | nil => exact ⟨t2r, by rw [show joinSep [' '] [t2] = t2 from rfl, ht2]⟩
        | cons t3 r3 =>
          refine ⟨t2r ++ [' '] ++ joinSep [' '] (t3 :: r3), ?_⟩
          rw [show joinSep [' '] (t2 :: t3 :: r3)
              = t2 ++ [' '] ++ joinSep [' '] (t3 :: r3) from rfl, ht2]
          simp
      obtain ⟨z, hz⟩ := hJcons
      rw [hjoin, splitRuns_eq, takeWhile_append_all hnot, dropWhile_append_all hnot]
      rw [List.takeWhile_cons, List.dropWhile_cons]
      simp only [show (fun c => !wsChar c) ' ' = false from rfl, Bool.false_eq_true, if_false,
        List.append_nil]
      have hdropsp : (joinSep [' '] (t2 :: r2)).dropWhile wsChar = joinSep [' '] (t2 :: r2) := by
        rw [hz]
        exact dropWhile_cons_neg z hc2
      rw [hdropsp, ih (by simp) (fun u hu => hwf u (by simp [hu]))]

theorem joinSep_ws_rstable : ∀ (ts : List Str), ts ≠ [] →
    (∀ t ∈ ts, t ≠ [] ∧ ∀ c ∈ t, wsChar c = false) →
    (joinSep [' '] ts).rdropWhile wsChar = joinSep [' '] ts ∧ joinSep [' '] ts ≠ [] := by
  intro ts
  induction ts with
  | nil =>
    intro h
    exact absurd rfl h
  | cons t rest ih =>
    intro _ hwf
    obtain ⟨htne, htchars⟩ := hwf t (by simp)
    cases rest with
    | nil =>
      constructor
      · exact (trimStable_parts (jsTrim_of_no_ws htchars)).2
      · exact htne
    | cons t2 r2 =>
      obtain ⟨hst, hne⟩ := ih (by simp) (fun u hu => hwf u (by simp [hu]))
      have hjoin : joinSep [' '] (t :: t2 :: r2)
          = (t ++ [' ']) ++ joinSep [' '] (t2 :: r2) := by
        rw [show joinSep [' '] (t :: t2 :: r2)
            = t ++ [' '] ++ joinSep [' '] (t2 :: r2) from rfl]
      constructor
      · rw [hjoin]
        exact rdropWhile_append_stable _ hne hst
      · rw [hjoin]
        simp [hne]

theorem joinSep_ws_trimStable {ts : List Str}
    (hwf : ∀ t ∈ ts, t ≠ [] ∧ ∀ c ∈ t, wsChar c = false) :
    jsTrim (joinSep [' '] ts) = joinSep [' '] ts := by
  cases ts with
  | nil => rfl
  | cons t rest =>
    obtain ⟨htne, htchars⟩ := hwf t (by simp)
    obtain ⟨c, tr, htc⟩ := List.exists_cons_of_ne_nil htne
    have hcs : wsChar c = false := htchars c (by rw [htc]; simp)
    apply jsTrim_eq_self_of_parts
    · have hcons : ∃ z : Str, joinSep [' '] (t :: rest) = c :: z := by
        cases rest with
        | nil => exact ⟨tr, by rw [show joinSep [' '] [t] = t from rfl, htc]⟩
        | cons t2 r2 =>
          refine ⟨tr ++ [' '] ++ joinSep [' '] (t2 :: r2), ?_⟩
          rw [show joinSep [' '] (t :: t2 :: r2)
              = t ++ [' '] ++ joinSep [' '] (t2 :: r2) from rfl, htc]
          simp
      obtain ⟨z, hz⟩ := hcons
      rw [hz]
      exact dropWhile_cons_neg z hcs
    · exact (joinSep_ws_rstable (t :: rest) (by simp) hwf).1

theorem beats_tokens_wf {bs : List JsNum} (h : ∀ b ∈ bs, goodNum b) :
    ∀ t ∈ bs.map jsNumToStr, t ≠ [] ∧ ∀ c ∈ t, wsChar c = false := by
  intro t ht
  obtain ⟨b, hb, rfl⟩ := List.mem_map.mp ht
  obtain ⟨q, rfl, hq0, hqf, hqr⟩ := goodNum_elim (h b hb)
  rw [jsNumToStr_goodNum hq0 hqf hqr]
  exact ⟨qToStrNNDec_ne_nil q hqf, qToStrNNDec_char_not_ws q hqf⟩

theorem parseBeats_join (bs : List JsNum) (h : ∀ b ∈ bs, goodNum b) (hne : bs ≠ []) :
    parseBeats (joinSep [' '] (bs.map jsNumToStr)) = bs := by
  unfold parseBeats
  rw [splitRuns_join_ws _ (by simpa using hne) (beats_tokens_wf h)]
  rw [List.filter_eq_self.mpr (fun t ht => decide_eq_true (beats_tokens_wf h t ht).1)]
  rw [List.map_map]
  have hmap : ∀ b ∈ bs, (parseFloatQ ∘ jsNumToStr) b = id b := by
    intro b hb
    obtain ⟨q, rfl, hq0, hqf, hqr⟩ := goodNum_elim (h b hb)
    show parseFloatQ (jsNumToStr (some q)) = some q
    rw [jsNumToStr_goodNum hq0 hqf hqr]
    exact parseFloatQ_qToStrNNDec q hq0 hqf
  rw [List.map_congr_left hmap, List.map_id]

theorem splitLines_joinLines : ∀ (L : List Str), L ≠ [] → (∀ l ∈ L, '\n' ∉ l) →
    splitLines (joinLines L ++ ['\n']) = L ++ [[]] := by
  intro L
  induction L with
  | nil =>
    intro h
    exact absurd rfl h
  | cons l rest ih =>
    intro _ hnl
    cases rest with
    | nil =>
      show splitLines (l ++ '\n' :: []) = [l, []]
      rw [splitLines_append_nl [] (hnl l (by simp))]
      rfl
    | cons l2 r2 =>
      rw [show joinLines (l :: l2 :: r2) = l ++ '\n' :: joinLines (l2 :: r2) from rfl]
      rw [show (l ++ '\n' :: joinLines (l2 :: r2)) ++ ['\n']
          = l ++ '\n' :: (joinLines (l2 :: r2) ++ ['\n']) from by simp]
      rw [splitLines_append_nl _ (hnl l (by simp))]
      rw [ih (by simp) (fun x hx => hnl x (by simp [hx]))]
      rfl

theorem not_ws_no_nl {t : Str} (h : ∀ c ∈ t, wsChar c = false) : '\n' ∉ t := by
  intro hm
  exact absurd (h _ hm) (by decide)

theorem partLineOf_no_nl (p : SongPart) (hWF : WFPart p) : '\n' ∉ partLineOf p := by
  obtain ⟨hn1, hn2, hn3, hi1, hi2, hgs, hge⟩ := hWF
  obtain ⟨qs, hqs, hqs0, hqsf, hqsr⟩ := goodNum_elim hgs
  obtain ⟨qe, hqe, hqe0, hqef, hqer⟩ := goodNum_elim hge
  intro hm
  rw [partLineOf_shape, hqs, hqe, jsNumToStr_goodNum hqs0 hqsf hqsr, jsNumToStr_goodNum hqe0 hqef hqer] at hm
  simp only [List.mem_append, List.mem_cons] at hm
  rcases hm with h | h | h | h | h | h | h | h
  · exact not_ws_no_nl (qToStrNNDec_char_not_ws qs hqsf) h
  · exact absurd h (by decide)
  · exact not_ws_no_nl (qToStrNNDec_char_not_ws qe hqef) h
  · exact absurd h (by decide)
  · revert h
    cases p.stance <;> decide
  · exact absurd h (by decide)
  · exact absurd (hn3 _ h) (by decide)
  · rcases h with h | h | h
    · exact absurd h (by decide)
    · exact absurd h (by decide)
    · exact not_ws_no_nl hi2 h

/-- C1 (amended): round trip of the song codec.  For a well-formed song —
trim-stable single-line metadata strings, a nonempty artist, numbers that
are nonnegative finite decimals inside JS's plain-decimal printing range
(zero, or in [1e-6, 1e21)), and parts whose names are nonempty, trim-stable
and free of line terminators, whose ids are nonempty and whitespace-free,
and whose times are such numbers — parsing the serialized file reproduces
the song exactly, field for field, parts in the same order.  Outside that
range JS prints exponent notation, which the part-line grammar cannot
reparse (see `songRoundTrip_counterexample`). -/
theorem songRoundTrip (s : SongFile) (h : WFSong s) :
    parseSongFile (serializeSongFile s) = s := by
  obtain ⟨sn, sa, sdur, sbpm, sf, sbe, sp⟩ := s
  obtain ⟨hnm, hnmn, ha1, ha2, ha3, hf1, hf2, hdur, hbpm, hbeat, hpart⟩ := h
  simp only at hnm hnmn ha1 ha2 ha3 hf1 hf2 hdur hbpm hbeat hpart
  obtain ⟨qd, hqd, hqd0, hqdf, hqdr⟩ := goodNum_elim hdur
  obtain ⟨qb, hqb, hqb0, hqbf, hqbr⟩ := goodNum_elim hbpm
  subst hqd
  subst hqb
  have hname : ∀ st : SongState, st.inBody = false → songStep st (str "name " ++ sn)
      = { st with name? := if sn = [] then st.name? else some sn } := by
    intro st hB
    by_cases hn : sn = []
    · rw [if_pos hn, hn, List.append_nil,
        songStep_skip st hB _ (by decide) (by decide) (by decide)]
    · rw [if_neg hn]
      exact songStep_line_name st hB sn hn hnm
  have hartist : ∀ st : SongState, st.inBody = false → songStep st (str "artist " ++ sa)
      = { st with artist? := some sa } := fun st hB => songStep_line_artist st hB sa ha1 ha2
  have hdq : jsNumToStr (some qd) = qToStrNNDec qd := jsNumToStr_goodNum hqd0 hqdf hqdr
  have hbq : jsNumToStr (some qb) = qToStrNNDec qb := jsNumToStr_goodNum hqb0 hqbf hqbr
  have hdurL : ∀ st : SongState, st.inBody = false →
      songStep st (str "duration " ++ jsNumToStr (some qd))
      = { st with duration? := some (some qd) } := by
    intro st hB
    rw [hdq, songStep_line_duration st hB _ (qToStrNNDec_ne_nil qd hqdf)
      (jsTrim_of_no_ws (qToStrNNDec_char_not_ws qd hqdf)), parseFloatQ_qToStrNNDec qd hqd0 hqdf]
  have hbpmL : ∀ st : SongState, st.inBody = false →
      songStep st (str "bpm " ++ jsNumToStr (some qb))
      = { st with bpm? := some (some qb) } := by
    intro st hB
    rw [hbq, songStep_line_bpm st hB _ (qToStrNNDec_ne_nil qb hqbf)
      (jsTrim_of_no_ws (qToStrNNDec_char_not_ws qb hqbf)), parseFloatQ_qToStrNNDec qb hqb0 hqbf]
  have hfileL : ∀ st : SongState, st.inBody = false → songStep st (str "filepath " ++ sf)
      = { st with filepath? := if sf = [] then st.filepath? else some sf } := by
    intro st hB
    by_cases hn : sf = []
    · rw [if_pos hn, hn, List.append_nil,
        songStep_skip st hB _ (by decide) (by decide) (by decide)]
    · rw [if_neg hn]
      exact songStep_line_filepath st hB sf hn hf1
  have hbeatsL : ∀ st : SongState, st.inBody = false →
      songStep st (str "beats " ++ joinSep [' '] (sbe.map jsNumToStr))
      = { st with beats? := if sbe = [] then st.beats? else some sbe } := by
    intro st hB
    by_cases hb : sbe = []
    · rw [if_pos hb, hb]
      rw [show joinSep [' '] (List.map jsNumToStr ([] : List JsNum)) = [] from rfl]
      rw [List.append_nil, songStep_skip st hB _ (by decide) (by decide) (by decide)]
    · have htokwf := beats_tokens_wf hbeat
      have hmapne : sbe.map jsNumToStr ≠ [] := by simpa using hb
      rw [if_neg hb, songStep_line_beats st hB _ (joinSep_ws_rstable _ hmapne htokwf).2
        (joinSep_ws_trimStable htokwf), parseBeats_join sbe hbeat hb]
  have hnl1 : '\n' ∉ str "name " ++ sn := by
    intro hm
    rcases List.mem_append.mp hm with h | h
    · exact absurd h (by decide)
    · exact hnmn h
  have hnl2 : '\n' ∉ str "artist " ++ sa := by
    intro hm
    rcases List.mem_append.mp hm with h | h
    · exact absurd h (by decide)
    · exact ha3 h
  have hnl3 : '\n' ∉ str "duration " ++ jsNumToStr (some qd) := by
    intro hm
    rcases List.mem_append.mp hm with h | h
    · exact absurd h (by decide)
    · rw [hdq] at h
      exact not_ws_no_nl (qToStrNNDec_char_not_ws qd hqdf) h
  have hnl4 : '\n' ∉ str "bpm " ++ jsNumToStr (some qb) := by
    intro hm
    rcases List.mem_append.mp hm with h | h
    · exact absurd h (by decide)
    · rw [hbq] at h
      exact not_ws_no_nl (qToStrNNDec_char_not_ws qb hqbf) h
  have hnl5 : '\n' ∉ str "filepath " ++ sf := by
    intro hm
    rcases List.mem_append.mp hm with h | h
    · exact absurd h (by decide)
    · exact hf2 h
  have hnl6 : '\n' ∉ str "beats " ++ joinSep [' '] (sbe.map jsNumToStr) := by
    intro hm
    rcases List.mem_append.mp hm with h | h
    · exact absurd h (by decide)
    · rcases mem_joinSep h with h2 | ⟨t, ht, hc⟩
      · exact absurd h2 (by decide)
      · exact not_ws_no_nl (beats_tokens_wf hbeat t ht).2 hc
  simp only [parseSongFile, serializeSongFile]
  by_cases hp : sp = []
  · subst hp
    rw [if_pos rfl]
    rw [splitLines_joinLines _ (by simp) (by
      intro l hl
      simp only [List.mem_cons, List.not_mem_nil, or_false] at hl
      rcases hl with rfl | rfl | rfl | rfl | rfl | rfl
      · exact hnl1
      · exact hnl2
      · exact hnl3
      · exact hnl4
      · exact hnl5
      · exact hnl6)]
    simp only [List.cons_append, List.nil_append]
    rw [List.foldl_cons, hname initSongState rfl]
    rw [List.foldl_cons, hartist _ rfl]
    rw [List.foldl_cons, hdurL _ rfl]
    rw [List.foldl_cons, hbpmL _ rfl]
    rw [List.foldl_cons, hfileL _ rfl]
    rw [List.foldl_cons, hbeatsL _ rfl]
    rw [List.foldl_cons, songStep_blank_noBody _ rfl, List.foldl_nil]
    simp only [SongFile.mk.injEq, initSongState, Option.getD_some]
    refine ⟨?_, trivial, trivial, trivial, ?_, ?_, trivial⟩
    · by_cases hn : sn = []
      · rw [if_pos hn, hn]
        rfl
      · rw [if_neg hn]
        rfl
    · by_cases hn : sf = []
      · rw [if_pos hn, hn]
        rfl
      · rw [if_neg hn]
        rfl
    · by_cases hn : sbe = []
      · rw [if_pos hn, hn]
        rfl
      · rw [if_neg hn]
        rfl
  · rw [if_neg hp]
    rw [splitLines_joinLines _ (by simp) (by
      intro l hl
      rcases List.mem_append.mp hl with h1 | h1
      · rcases List.mem_append.mp h1 with h2 | h2
        · simp only [List.mem_cons, List.not_mem_nil, or_false] at h2
          rcases h2 with rfl | rfl | rfl | rfl | rfl | rfl
          · exact hnl1
          · exact hnl2
          · exact hnl3
          · exact hnl4
          · exact hnl5
          · exact hnl6
        · simp only [List.mem_cons, List.not_mem_nil, or_false] at h2
          rcases h2 with rfl | rfl | rfl
          · exact List.not_mem_nil _
          · decide
          · decide
      · obtain ⟨p, hpm, rfl⟩ := List.mem_map.mp h1
        exact partLineOf_no_nl p (hpart p hpm))]
    simp only [List.cons_append, List.nil_append, List.append_assoc]
    rw [List.foldl_cons, hname initSongState rfl]
    rw [List.foldl_cons, hartist _ rfl]
    rw [List.foldl_cons, hdurL _ rfl]
    rw [List.foldl_cons, hbpmL _ rfl]
    rw [List.foldl_cons, hfileL _ rfl]
    rw [List.foldl_cons, hbeatsL _ rfl]
    rw [List.foldl_cons, songStep_blank_noBody _ rfl]
    rw [List.foldl_cons, songStep_hash_body _]
    rw [List.foldl_cons, songStep_parts_colon _ rfl]
    rw [List.foldl_append]
    rw [songBody_fold sp _ rfl rfl hpart]
    rw [List.foldl_cons, songStep_blank_inBody _ rfl, List.foldl_nil]
    simp only [SongFile.mk.injEq, initSongState, Option.getD_some, List.nil_append]
    refine ⟨?_, trivial, trivial, trivial, ?_, ?_, trivial⟩
    · by_cases hn : sn = []
      · rw [if_pos hn, hn]
        rfl
      · rw [if_neg hn]
        rfl
    · by_cases hn : sf = []
      · rw [if_pos hn, hn]
        rfl
      · rw [if_neg hn]
        rfl
    · by_cases hn : sbe = []
      · rw [if_pos hn, hn]
        rfl
      · rw [if_neg hn]
        rfl

/-- A concrete well-formed song exercising every serialized field: fractional
times, beats, and a part with an internal space in its name. -/
def roundTripSongEx : SongFile :=
  { name := str "My Song", artist := str "Some Artist", duration := some (mkRat 123 2),
    bpm := some 128, filepath := str "files/audio/my.wav",
    beats := [some (mkRat 1 2), some 2],
    parts := [{ id := str "p1", name := str "Intro A", startTime := some 0,
                endTime := some (mkRat 61 2), stance := Stance.Centered }] }

theorem songRoundTrip_witness :
    WFSong roundTripSongEx
      ∧ parseSongFile (serializeSongFile roundTripSongEx) = roundTripSongEx :=
  ⟨by decide, songRoundTrip roundTripSongEx (by decide)⟩

/-- A song that is well formed except that its part times lie at and above
1e21, where JS number-to-string switches to exponent notation. -/
def expSongEx : SongFile :=
  { name := [], artist := str "A", duration := some 1, bpm := some 1, filepath := [],
    beats := [],
    parts := [{ id := str "p1", name := str "X",
                startTime := some (mkRat 1000000000000000000000 1),
                endTime := some (mkRat 2000000000000000000000 1), stance := Stance.Right }] }

/-- C1 counterexample: a part starting at 1e21 serializes to the line
`1e+21 2e+21 Right X @p1` — JS prints exponent notation at and above
1e21 — which `PART_LINE_RE` (`\d+\.?\d*` for each time) cannot match, so
`parseSongFile` silently drops the part and the round trip fails. -/
theorem songRoundTrip_counterexample :
    parseSongFile (serializeSongFile expSongEx) ≠ expSongEx := by
  decide

/-- A song body whose single part line carries a 309-digit start time. -/
def overflowSongStr : Str :=
  str "#BODY" ++ '\n' :: str "parts:" ++ '\n' :: List.replicate 309 '9' ++ str " 1 Right x @i"

set_option maxRecDepth 8192 in
set_option exponentiation.threshold 1100 in
/-- C9 counterexample to the "finite" conclusion: `\d+` matches digit runs
of any length, and JS `parseFloat` of a 309-digit literal overflows the
IEEE double range, so the program stores `Infinity` — nonnegative and not
NaN, but not finite.  In the exact-rational embedding the parsed start time
is at least 2^1024, strictly above every finite double. -/
theorem parseSongFile_time_overflow :
    ∃ p ∈ (parseSongFile overflowSongStr).parts,
      jsLe (some (mkRat ((2 ^ 1024 : Nat) : Int) 1)) p.startTime = true := by
  decide
